import Mathlib

/-!
Verification of the invoice field-mapping / extraction engine of the
remindandpay-live repository (browser-side JavaScript).

The JavaScript strings are modelled as lists of characters (`JStr`), and the
relevant source functions are translated one-to-one:

* `applyFilter`        — from `src/unnamed/part_003` lines 97–139 (identical to
                         `src/unnamed/part_001` lines 113–154 except that the
                         older copy lacks the `highlight_text` branch);
* `applyFilterSettings`— from `src/web/static/js/settings_html_import.js`
                         lines 102–121 (the variant with `amount` and
                         `strip_parentheses` branches);
* `deriveTokenFilter`  — from `src/unnamed/part_003` lines 504–524;
* `findValueBlock`     — from `src/web/static/js/block_mapper_ui.js`
                         lines 233–266;
* the template operations and wizard state machine — from
  `src/web/static/js/block_mapper_ui.js` (addToTemplate, isFieldMapped,
  fieldsComplete, updateFieldRadiosLockState, advanceAfterFieldSave, and the
  bm_field_choice change handler).

Modelling conventions:
* `String.prototype.trim` / `\s` use `Char.isWhitespace` (ASCII whitespace);
  `toLowerCase` is modelled by ASCII case folding (`jsLower`), which is exact
  for the ASCII inputs these filters handle.
* JavaScript numbers in `parseFloat`/`toFixed(2)` are modelled by exact
  rationals with round-half-up; this agrees with the JS float semantics on all
  inputs appearing in the theorems below (their scaled values are integers, so
  no rounding ties or representation error arise), and `Number.isFinite` is
  modelled as true (matched numerals of astronomically many digits are outside
  the scope of every claim).
* The browser's regular-expression engine, an external primitive from the point
  of view of this code, is a parameter (`RegexEngine`): `exec pat s = none`
  models a pattern that fails to compile, `some none` a compiled pattern with
  no match, and `some (some gs)` a match whose group list `gs` has the whole
  match at index 0 (a `none` entry is a non-participating group, i.e. JS
  `undefined`).  Concrete instances used in witnesses implement the documented
  JS semantics for the specific literal patterns involved.
* `Array.prototype.sort` (stable since ES2019) followed by `[0]` is modelled by
  `firstMinBy`, which returns the first element that is minimal for the
  comparator — exactly the head of a stable sort.
-/

/-- JavaScript strings are modelled as lists of characters. -/
abbrev JStr := List Char

/-- Whitespace test used by the model of `trim` and of the regex class `\s`. -/
def wsB (c : Char) : Bool := c.isWhitespace

/-- Model of the left half of `String.prototype.trim`. -/
def ltrimWS (l : JStr) : JStr := l.dropWhile wsB

/-- Model of the right half of `String.prototype.trim`. -/
def rtrimWS (l : JStr) : JStr := (l.reverse.dropWhile wsB).reverse

/-- Model of `String.prototype.trim` (both ends). -/
def trimWS (l : JStr) : JStr := rtrimWS (ltrimWS l)

/-- ASCII case folding, the model of `String.prototype.toLowerCase` for the
ASCII inputs handled by these filters. -/
def jsLower (c : Char) : Char :=
  if c.toNat ≥ 65 ∧ c.toNat ≤ 90 then Char.ofNat (c.toNat + 32) else c

/-- Model of `s.toLowerCase()`. -/
def lowerStr (l : JStr) : JStr := l.map jsLower

/-- Model of `hay.indexOf(pat)` (position of the first occurrence). -/
def indexOf? (hay pat : JStr) : Option Nat :=
  match hay with
  | [] => if pat = [] then some 0 else none
  | _ :: t => if pat.isPrefixOf hay then some 0 else (indexOf? t pat).map (· + 1)

/-- Model of `hay.indexOf(pat, start)` (search from a given position). -/
def indexOfFrom (hay pat : JStr) (start : Nat) : Option Nat :=
  (indexOf? (hay.drop start) pat).map (· + start)

/-- Model of `s.slice(a, b)` for `a ≤ b` (the only way it is called here). -/
def sliceFT (l : JStr) (a b : Nat) : JStr := (l.drop a).take (b - a)

/-- Model of `s.slice(-n)` (the last `min n (length s)` characters). -/
def sliceLast (n : Nat) (l : JStr) : JStr := l.drop (l.length - n)

theorem dropWhile_length_le {α} (p : α → Bool) (l : List α) :
    (l.dropWhile p).length ≤ l.length := by
  induction l with
  | nil => simp [List.dropWhile]
  | cons a t ih =>
    by_cases h : p a
    · simpa [List.dropWhile, h] using Nat.le_succ_of_le ih
    · simp [List.dropWhile, h]

/-- Worker for `collapseWS`: the flag records whether the previous character
was part of a whitespace run already replaced by a space. -/
def collapseAux : Bool → JStr → JStr
  | _, [] => []
  | inWS, c :: t =>
    if wsB c then
      if inWS then collapseAux true t else ' ' :: collapseAux true t
    else c :: collapseAux false t

/-- Model of `s.replace(/\s+/g, " ")`: every maximal whitespace run becomes a
single space. -/
def collapseWS (l : JStr) : JStr := collapseAux false l

/-- Normalization applied to samples and selections in the HTML mapper:
`(s || "").trim().replace(/\s+/g, " ")`. -/
def normJS (l : JStr) : JStr := collapseWS (trimWS l)

/-- Decimal digit character for `n < 10`. -/
def digitChar (n : Nat) : Char := Char.ofNat (48 + n)

/-- Worker for `natDigits` (the fuel strictly dominates the digit count). -/
def natDigitsAux : Nat → Nat → JStr
  | 0, _ => []
  | fuel + 1, n =>
    if n < 10 then [digitChar n]
    else natDigitsAux fuel (n / 10) ++ [digitChar (n % 10)]

/-- Decimal rendering of a natural number (most significant digit first). -/
def natDigits (n : Nat) : JStr := natDigitsAux (n + 1) n

/-- Numeric value of a digit string (as read by `parseFloat` on the integer
part or the fraction digits). -/
def digitsToNat (l : JStr) : Nat := l.foldl (fun a c => a * 10 + (c.toNat - 48)) 0

/-- Model of `parseFloat(s).toFixed(2)` on the comma-stripped numeral matched
by the amount regex (integer digits `A`, fraction digits `F` of length `k`,
exact value `A + F / 10^k`).  Rounding half up to hundredths gives
`n = ⌊(A + F / 10^k) * 100 + 1/2⌋ = (200 * A * 10^k + 200 * F + 10^k) / (2 * 10^k)`
in integer arithmetic; the result is rendered with exactly two decimals. -/
def toFixed2Parts (A F k : Nat) : JStr :=
  let n := (200 * A * 10 ^ k + 200 * F + 10 ^ k) / (2 * 10 ^ k)
  natDigits (n / 100) ++ '.' ::
    (if n % 100 < 10 then '0' :: [digitChar (n % 100)] else natDigits (n % 100))

/-- Split the comma-stripped numeral into integer and fraction digits and
apply `toFixed2Parts` (the model of `parseFloat(..).toFixed(2)`). -/
def parseToFixed2 (s : JStr) : JStr :=
  let ip := s.takeWhile (fun c => c ≠ '.')
  match s.drop ip.length with
  | '.' :: fr => toFixed2Parts (digitsToNat ip) (digitsToNat fr) fr.length
  | _ => toFixed2Parts (digitsToNat ip) 0 0

/-- Worker for `eatGroups` (the fuel strictly dominates the input length). -/
def eatGroupsAux : Nat → JStr → JStr × JStr
  | 0, l => ([], l)
  | fuel + 1, l =>
    match l with
    | ',' :: rest =>
      let ds := (rest.takeWhile Char.isDigit).take 3
      if ds.length = 3 then
        let pr := eatGroupsAux fuel (rest.drop 3)
        (',' :: (ds ++ pr.1), pr.2)
      else ([], l)
    | _ => ([], l)

/-- Consume `(?:,[0-9]{3})*` greedily: each repetition is a comma followed by
exactly three digits.  Returns the consumed characters and the rest. -/
def eatGroups (l : JStr) : JStr × JStr := eatGroupsAux (l.length + 1) l

/-- Consume the optional fraction `(?:\.[0-9]+)?` (greedy, needs at least one
digit after the dot, otherwise matches empty). -/
def fracPart (l : JStr) : JStr :=
  match l with
  | '.' :: rest =>
    let ds := rest.takeWhile Char.isDigit
    if ds.length > 0 then '.' :: ds else []
  | _ => []

/-- Match of the amount numeral regex
`([0-9]{1,3}(?:,[0-9]{3})*(?:\.[0-9]+)?|[0-9]+(?:\.[0-9]+)?)` at a position
whose first character is a digit.  The first alternative always succeeds there
(JS alternation is ordered), taking at most three leading digits greedily. -/
def numMatchAt (l : JStr) : JStr :=
  let d1 := (l.takeWhile Char.isDigit).take 3
  let g := eatGroups (l.drop d1.length)
  d1 ++ g.1 ++ fracPart g.2

/-- Model of `value.match(amount-regex)`: the match at the first position where
the regex matches, i.e. at the first digit. -/
def numMatch : JStr → Option JStr
  | [] => none
  | c :: t => if c.isDigit then some (numMatchAt (c :: t)) else numMatch t

/-- Word character test for the regex `\b` boundary (`[A-Za-z0-9_]`). -/
def isWordB (c : Char) : Bool := c.isAlphanum || c = '_'

/-- Whether a `\b` boundary holds before a digit given the previous character
(`none` at the start of the string). -/
def boundaryOk : Option Char → Bool
  | none => true
  | some c => !isWordB c

/-- Whether a `\b` boundary holds after a digit given the remaining suffix. -/
def endBoundaryOk : JStr → Bool
  | [] => true
  | c :: _ => !isWordB c

/-- Match of `\d{1,2}\/\d{1,2}\/\d{4}\b` at the current position (the leading
`\b` is checked by the caller).  As the quantified pieces are delimited by
non-digits, the backtracking regex reduces to this deterministic test. -/
def m1At (l : JStr) : Option JStr :=
  let d1 := l.takeWhile Char.isDigit
  if d1.length = 0 ∨ d1.length > 2 then none else
  let r1 := l.drop d1.length
  if r1.head? = some '/' then
    let d2 := r1.tail.takeWhile Char.isDigit
    if d2.length = 0 ∨ d2.length > 2 then none else
    let r3 := r1.tail.drop d2.length
    if r3.head? = some '/' then
      let y := r3.tail.takeWhile Char.isDigit
      if y.length = 4 ∧ endBoundaryOk (r3.tail.drop y.length) then
        some (d1 ++ '/' :: (d2 ++ '/' :: y))
      else none
    else none
  else none

/-- Scan for the first match of the slash-date pattern, carrying the previous
character for the leading `\b`. -/
def findM1 (prev : Option Char) : JStr → Option JStr
  | [] => none
  | c :: t =>
    match (if boundaryOk prev then m1At (c :: t) else none) with
    | some m => some m
    | none => findM1 (some c) t

/-- Match of `\d{1,2}\s+[A-Za-z]{3,9}\s+\d{4}\b` at the current position (the
leading `\b` is checked by the caller). -/
def m2At (l : JStr) : Option JStr :=
  let d1 := l.takeWhile Char.isDigit
  if d1.length = 0 ∨ d1.length > 2 then none else
  let r1 := l.drop d1.length
  let s1 := r1.takeWhile wsB
  if s1.length = 0 then none else
  let r2 := r1.drop s1.length
  let a := r2.takeWhile Char.isAlpha
  if a.length < 3 ∨ a.length > 9 then none else
  let r3 := r2.drop a.length
  let s2 := r3.takeWhile wsB
  if s2.length = 0 then none else
  let r4 := r3.drop s2.length
  let y := r4.takeWhile Char.isDigit
  if y.length = 4 ∧ endBoundaryOk (r4.drop y.length) then
    some (d1 ++ s1 ++ a ++ s2 ++ y)
  else none

/-- Scan for the first match of the textual-date pattern. -/
def findM2 (prev : Option Char) : JStr → Option JStr
  | [] => none
  | c :: t =>
    match (if boundaryOk prev then m2At (c :: t) else none) with
    | some m => some m
    | none => findM2 (some c) t

/-- Model of the `date` filter body:
`value.match(/\b\d{1,2}\/\d{1,2}\/\d{4}\b/i) || value.match(/\b\d{1,2}\s+[A-Za-z]{3,9}\s+\d{4}\b/i)`,
returning `match[0]` or the value itself (the `i` flag is inert: both patterns
already accept both letter cases). -/
def dateMatch (value : JStr) : JStr :=
  match findM1 none value with
  | some m => m
  | none =>
    match findM2 none value with
    | some m => m
    | none => value

/-- Split off the first match of `\s*\([^)]*\)\s*`: returns the text before the
match (the kept part) and the text after it, or `none` when the string has no
parenthesized group.  The leftmost match starts at the whitespace run before
the first `(`, consumes up to the first `)` after it, and eats trailing
whitespace greedily. -/
def splitGroup (l : JStr) : Option (JStr × JStr) :=
  match l.drop (l.takeWhile (fun c => c ≠ '(')).length with
  | '(' :: rest =>
    match rest.drop (rest.takeWhile (fun c => c ≠ ')')).length with
    | ')' :: rest2 => some (rtrimWS (l.takeWhile (fun c => c ≠ '(')), ltrimWS rest2)
    | _ => none
  | _ => none

theorem splitGroup_length {l p q : JStr} (h : splitGroup l = some (p, q)) :
    q.length < l.length := by
  unfold splitGroup at h
  split at h
  case h_1 c rest heq =>
    split at h
    case h_1 c2 rest2 heq2 =>
      have h1 := congrArg List.length heq
      have h2 := congrArg List.length heq2
      simp only [List.length_drop, List.length_cons] at h1 h2
      have hq : q = ltrimWS rest2 := by
        simp only [Option.some.injEq, Prod.mk.injEq] at h
        exact h.2.symm
      have h3 : q.length ≤ rest2.length := by
        rw [hq]; exact dropWhile_length_le wsB rest2
      omega
    case h_2 => exact absurd h (by simp)
  case h_2 => exact absurd h (by simp)

/-- Model of `value.replace(/\s*\([^)]*\)\s*/g, " ")`: repeatedly replace the
leftmost parenthesized group (with its surrounding whitespace) by a single
space, continuing after each replacement. -/
def stripCore (l : JStr) : JStr :=
  match h : splitGroup l with
  | none => l
  | some pq => pq.1 ++ ' ' :: stripCore pq.2
termination_by l.length
decreasing_by exact splitGroup_length h

/-- Tagged union of the filter objects built by the mapping UIs.  An absent or
empty `token`/`pattern` field is modelled by the empty string; an absent or
non-finite `group` by `Option.none` (matching the `Number.isFinite` test). -/
inductive FilterSpec where
  | fnone
  | digits_only
  | amount
  | date
  | strip_parentheses
  | after_token (token : JStr)
  | before_token (token : JStr)
  | between_tokens (left right : JStr)
  | regex (pattern : JStr) (group : Option Int)
  | highlight_text (selected_text : JStr)
deriving DecidableEq, Repr

/-- The browser's regular-expression engine, an external primitive for this
code: `exec pat s = none` means the pattern failed to compile, `some none` a
successful compile with no match on `s`, `some (some gs)` a match with group
list `gs` (whole match at index 0, `none` for a non-participating group). -/
structure RegexEngine where
  exec : JStr → JStr → Option (Option (List (Option JStr)))

/-- Model of the JS indexing `match[group]`: out-of-range or negative indices
give `undefined`. -/
def getGroup (gs : List (Option JStr)) (g : Int) : Option JStr :=
  if g < 0 then none else gs.getD g.toNat none

/-- Filter engine of `src/unnamed/part_003` lines 97–139 (`applyFilter`).  The
branches are in source order; constructors without a branch in that source
(`amount`, `strip_parentheses`) fall through to the trimmed value, exactly as
the JS if-chain does. -/
def applyFilter (eng : RegexEngine) (raw : JStr) (spec : FilterSpec) : JStr :=
  let value := trimWS raw
  match spec with
  | .fnone => value
  | .highlight_text sel => sel
  | .digits_only =>
    match numMatch value with
    | none => value.filter Char.isDigit
    | some m => parseToFixed2 (m.filter (fun c => c ≠ ','))
  | .date => dateMatch value
  | .after_token tok =>
    if tok = [] then value
    else
      match indexOf? value tok with
      | none => value
      | some i => trimWS (value.drop (i + tok.length))
  | .before_token tok =>
    if tok = [] then value
    else
      match indexOf? value tok with
      | none => value
      | some i => trimWS (value.take i)
  | .between_tokens lt rt =>
    if lt = [] ∨ rt = [] then value
    else
      match indexOf? value lt with
      | none => value
      | some li =>
        match indexOfFrom value rt (li + lt.length) with
        | none => value
        | some ri => trimWS (sliceFT value (li + lt.length) ri)
  | .regex pat grp =>
    if pat = [] then value
    else
      match eng.exec pat value with
      | none => value
      | some none => value
      | some (some gs) => trimWS ((getGroup gs (grp.getD 1)).getD [])
  | .amount => value
  | .strip_parentheses => value

/-- Filter engine of `src/web/static/js/settings_html_import.js` lines 102–121
(the variant with `amount` and `strip_parentheses`; token/regex/highlight
types have no branch there and fall through to the trimmed value). -/
def applyFilterSettings (raw : JStr) (spec : FilterSpec) : JStr :=
  let value := trimWS raw
  match spec with
  | .fnone => value
  | .digits_only => value.filter Char.isDigit
  | .amount =>
    match numMatch value with
    | none => value
    | some m => parseToFixed2 (m.filter (fun c => c ≠ ','))
  | .date => dateMatch value
  | .strip_parentheses => trimWS (stripCore value)
  | _ => value

/-- The local `leftContext` of `deriveTokenFilter`: `value.slice(0, idx).trim()`. -/
def dtfLeftContext (value : JStr) (idx : Nat) : JStr := trimWS (value.take idx)

/-- The local `rightContext` of `deriveTokenFilter`:
`value.slice(idx + selected.length).trim()`. -/
def dtfRightContext (value selected : JStr) (idx : Nat) : JStr :=
  trimWS (value.drop (idx + selected.length))

/-- The local `leftToken` of `deriveTokenFilter`: `leftContext.slice(-20).trim()`. -/
def dtfLeftToken (value : JStr) (idx : Nat) : JStr :=
  trimWS (sliceLast 20 (dtfLeftContext value idx))

/-- The local `rightToken` of `deriveTokenFilter`: `rightContext.slice(0, 20).trim()`. -/
def dtfRightToken (value selected : JStr) (idx : Nat) : JStr :=
  trimWS ((dtfRightContext value selected idx).take 20)

/-- Model of `deriveTokenFilter` from `src/unnamed/part_003` lines 504–524:
derive a token filter from a highlighted selection inside a sample string. -/
def deriveTokenFilter (raw selection : JStr) : Option FilterSpec :=
  let value := normJS raw
  let selected := normJS selection
  if value = [] ∨ selected = [] then none else
  match indexOf? (lowerStr value) (lowerStr selected) with
  | none => none
  | some idx =>
    let leftToken := dtfLeftToken value idx
    let rightToken := dtfRightToken value selected idx
    if leftToken ≠ [] ∧ rightToken ≠ [] then
      some (.between_tokens leftToken rightToken)
    else if leftToken ≠ [] then
      some (.after_token leftToken)
    else if rightToken ≠ [] then
      some (.before_token rightToken)
    else
      some (.regex selected none)

/-- Bounding box of a text block (document units; exact rationals model the JS
numbers appearing here). -/
structure BBox where
  x0 : ℚ
  y0 : ℚ
  x1 : ℚ
  y1 : ℚ
deriving DecidableEq, Repr

/-- One text block of the Block Index (only the attributes `findValueBlock`
reads; blocks supplied by the backend always carry a numeric `line_y`). -/
structure TextBlock where
  id : Nat
  bbox : BBox
  line_y : ℚ
deriving DecidableEq, Repr

/-- Search direction of a field mapping. -/
inductive Dir where
  | right
  | below
deriving DecidableEq, Repr

/-- First element of a list that is minimal for the strict comparator `lt`:
the model of a stable `Array.prototype.sort(cmp)` followed by `[0]` (with
`lt a b` meaning `cmp(a,b) < 0`). -/
def firstMinBy {α : Type} (lt : α → α → Bool) (l : List α) : Option α :=
  l.foldl
    (fun acc b =>
      match acc with
      | none => some b
      | some a => if lt b a then some b else acc)
    none

/-- Comparator used for the `right` direction: ascending `x0`. -/
def ltRight (a b : TextBlock) : Bool := a.bbox.x0 < b.bbox.x0

/-- Comparator used for the `below` direction: vertical distance from the
label's bottom first, then horizontal-center distance from the label's
center.  (With `y1` fixed, comparing `y0 - y1` is comparing `y0`.) -/
def ltBelow (labelCx : ℚ) (a b : TextBlock) : Bool :=
  if a.bbox.y0 ≠ b.bbox.y0 then a.bbox.y0 < b.bbox.y0
  else |(a.bbox.x0 + a.bbox.x1) / 2 - labelCx| < |(b.bbox.x0 + b.bbox.x1) / 2 - labelCx|

/-- Model of `findValueBlock` from `src/web/static/js/block_mapper_ui.js`
lines 233–266. -/
def findValueBlock (blocks : List TextBlock) (label : TextBlock) (dir : Dir) :
    Option TextBlock :=
  match dir with
  | .right =>
    let sameLine := blocks.filter (fun b => |b.line_y - label.line_y| ≤ 5 / 2)
    let rightBlocks := sameLine.filter (fun b => b.bbox.x0 ≥ label.bbox.x1 - 1 / 2)
    firstMinBy ltRight rightBlocks
  | .below =>
    let belowBlocks := blocks.filter (fun b => b.bbox.y0 > label.bbox.y1 + 1)
    firstMinBy (ltBelow ((label.bbox.x0 + label.bbox.x1) / 2)) belowBlocks

/-- Anchor point stored in a field mapping (presence models the JS truthiness
check `f.anchor`). -/
structure Anchor where
  page : Nat
  x : ℚ
  y : ℚ
deriving DecidableEq, Repr

/-- One entry of a template's `fields` list.  `trigger_text` and `direction`
are strings whose JS truthiness is emptiness. -/
structure FieldMapping where
  field_key : String
  trigger_text : String
  direction : String
  anchor : Option Anchor
deriving DecidableEq, Repr

/-- The template as edited by the block mapper (customer mapping lives in a
separate slot and is irrelevant to the field list operations below). -/
structure Template where
  fields : List FieldMapping
deriving DecidableEq, Repr

/-- Model of `isFieldMapped` (`block_mapper_ui.js` lines 602–605):
the entry for the key exists and has truthy trigger, direction and anchor. -/
def isFieldMapped (tpl : Template) (key : String) : Bool :=
  match tpl.fields.find? (fun f => f.field_key = key) with
  | none => false
  | some f => f.trigger_text ≠ "" ∧ f.direction ≠ "" ∧ f.anchor.isSome

/-- The `REQUIRED` set of `block_mapper_ui.js` line 63 (insertion order). -/
def REQUIRED : List String := ["invoice_number", "issue_date", "amount_due"]

/-- Model of `fieldsComplete` (`block_mapper_ui.js` lines 607–612). -/
def fieldsComplete (tpl : Template) : Bool := REQUIRED.all (isFieldMapped tpl)

/-- Whether the `customer_map` radio is enabled, from
`updateFieldRadiosLockState` (`block_mapper_ui.js` lines 747–762):
`custRadio.disabled = !fieldsComplete(tpl)`. -/
def customerMapUnlocked (tpl : Template) : Bool := fieldsComplete tpl

/-- Model of the field-list update in `addToTemplate` (`block_mapper_ui.js`
lines 1113–1118): drop entries with the same key, append the new one. -/
def setField (tpl : Template) (m : FieldMapping) : Template :=
  { fields := tpl.fields.filter (fun f => f.field_key ≠ m.field_key) ++ [m] }

/-- The wizard order of invoice fields (`FIELD_SEQUENCE`,
`block_mapper_ui.js` line 73). -/
def FIELD_SEQUENCE : List String :=
  ["invoice_number", "issue_date", "amount_due", "due_date"]

/-- Index of a key in `FIELD_SEQUENCE` (`-1` in JS becomes `none`). -/
def seqIdx (key : String) : Option Nat := FIELD_SEQUENCE.findIdx? (fun k => k = key)

/-- The wizard state tracked by `block_mapper_ui.js` (module-level variables
`currentFieldIndex`, `maxUnlockedIndex`, plus the checked field radio). -/
structure WizardState where
  currentFieldIndex : Nat
  maxUnlockedIndex : Nat
  activeFieldKey : String
deriving DecidableEq, Repr

/-- Model of `setCurrentFieldFromKey` (`block_mapper_ui.js` lines 765–796):
record the key as active and, when it is a sequence field, move
`currentFieldIndex` to it (the DOM side effects are not modelled). -/
def setCurrentFieldFromKey (st : WizardState) (key : String) : WizardState :=
  { currentFieldIndex := (seqIdx key).getD st.currentFieldIndex
    maxUnlockedIndex := st.maxUnlockedIndex
    activeFieldKey := key }

/-- Model of the `bm_field_choice` change handler (`block_mapper_ui.js`
lines 1134–1152): selecting a still-locked sequence field is rejected and the
selection reverts to the current field; otherwise the field becomes current. -/
def selectField (st : WizardState) (key : String) : WizardState :=
  match seqIdx key with
  | some idx =>
    if idx > st.maxUnlockedIndex then
      { st with activeFieldKey := FIELD_SEQUENCE.getD st.currentFieldIndex "invoice_number" }
    else setCurrentFieldFromKey st key
  | none => setCurrentFieldFromKey st key

/-- Model of `advanceAfterFieldSave` (`block_mapper_ui.js` lines 798–815). -/
def advanceAfterFieldSave (st : WizardState) (savedKey : String) (tpl : Template) :
    WizardState :=
  match seqIdx savedKey with
  | none => st
  | some savedIndex =>
    let st1 :=
      if savedIndex + 1 > st.maxUnlockedIndex then
        { st with maxUnlockedIndex := min (savedIndex + 1) (FIELD_SEQUENCE.length - 1) }
      else st
    match FIELD_SEQUENCE.find? (fun k => ¬ isFieldMapped tpl k) with
    | some nextKey => setCurrentFieldFromKey st1 nextKey
    | none => st1

/-- Saving an invoice-field mapping (`addToTemplate` for a non-customer key,
`block_mapper_ui.js` lines 1064–1129): update the template, then advance the
wizard. -/
def saveField (st : WizardState) (tpl : Template) (m : FieldMapping) :
    WizardState × Template :=
  let tpl' := setField tpl m
  (advanceAfterFieldSave st m.field_key tpl', tpl')

/-- The fresh wizard state (`currentFieldIndex = 0`, `maxUnlockedIndex = 0`,
only `invoice_number` unlocked). -/
def freshWizard : WizardState :=
  { currentFieldIndex := 0, maxUnlockedIndex := 0, activeFieldKey := "invoice_number" }

theorem find?_filter_of_imp {α} (p q : α → Bool) (l : List α)
    (h : ∀ x, p x = true → q x = true) : (l.filter q).find? p = l.find? p := by
  induction l with
  | nil => rfl
  | cons a t ih =>
    by_cases hq : q a
    · by_cases hp : p a
      · simp [List.filter_cons, hq, List.find?_cons, hp]
      · simp [List.filter_cons, hq, List.find?_cons, hp, ih]
    · have hp : p a = false := by
        cases hpa : p a
        · rfl
        · exact absurd (h a hpa) (by simp [hq])
      simp [List.filter_cons, hq, List.find?_cons, hp, ih]

theorem isFieldMapped_setField_ne (tpl : Template) (m : FieldMapping) (k : String)
    (hk : k ≠ m.field_key) : isFieldMapped (setField tpl m) k = isFieldMapped tpl k := by
  unfold isFieldMapped setField
  simp only [List.find?_append]
  have h1 : (tpl.fields.filter (fun f => f.field_key ≠ m.field_key)).find?
      (fun f => f.field_key = k) = tpl.fields.find? (fun f => f.field_key = k) := by
    apply find?_filter_of_imp
    intro f hf
    simp only [decide_eq_true_eq] at hf ⊢
    rw [hf]; exact hk
  have h2 : ([m].find? (fun f => f.field_key = k)) = none := by
    simp [List.find?_cons, (Ne.symm hk)]
  rw [h1, h2]
  cases tpl.fields.find? (fun f => f.field_key = k) <;> rfl

/-- C9.  `setField` (the field-list update of `addToTemplate`) removes every
entry carrying the same `field_key` and appends the new mapping at the end,
and is idempotent: saving the same mapping twice equals saving it once. -/
theorem setField_removes_and_appends_idempotent (tpl : Template) (m : FieldMapping) :
    (setField tpl m).fields
        = tpl.fields.filter (fun f => f.field_key ≠ m.field_key) ++ [m]
      ∧ (∀ f ∈ (setField tpl m).fields, f.field_key = m.field_key → f = m)
      ∧ setField (setField tpl m) m = setField tpl m := by
  refine ⟨rfl, ?_, ?_⟩
  · intro f hf hkey
    simp only [setField, List.mem_append, List.mem_filter, List.mem_singleton] at hf
    rcases hf with ⟨_, hne⟩ | hm
    · exact absurd hkey (by simpa using hne)
    · exact hm
  · show Template.mk _ = Template.mk _
    congr 1
    simp only [setField, List.filter_append, List.filter_filter]
    have h1 : ([m].filter (fun f => f.field_key ≠ m.field_key)) = [] := by
      simp [List.filter_cons]
    rw [h1, List.append_nil]
    congr 1
    apply List.filter_congr
    intro f _
    simp

/-- C2.  The customer-map slot is unlocked exactly when every field of the
`REQUIRED` set `{invoice_number, issue_date, amount_due}` is mapped, and
mapping or remapping `due_date` never changes whether it is unlocked
(`due_date` occupies a wizard slot but is not required). -/
theorem customer_map_gating (tpl : Template) :
    (customerMapUnlocked tpl = true ↔
        (isFieldMapped tpl "invoice_number" = true
          ∧ isFieldMapped tpl "issue_date" = true
          ∧ isFieldMapped tpl "amount_due" = true))
      ∧ ∀ m : FieldMapping, m.field_key = "due_date" →
          customerMapUnlocked (setField tpl m) = customerMapUnlocked tpl := by
  constructor
  · simp [customerMapUnlocked, fieldsComplete, REQUIRED]
  · intro m hm
    unfold customerMapUnlocked fieldsComplete REQUIRED
    simp only [List.all_cons, List.all_nil]
    rw [isFieldMapped_setField_ne tpl m _ (by rw [hm]; decide),
      isFieldMapped_setField_ne tpl m _ (by rw [hm]; decide),
      isFieldMapped_setField_ne tpl m _ (by rw [hm]; decide)]

/-- Witness for the hypothesis-bearing part of C2: on the empty template,
saving a `due_date` mapping leaves the customer-map slot locked. -/
theorem customer_map_gating_witness :
    customerMapUnlocked
        (setField ⟨[]⟩ ⟨"due_date", "Due:", "right", some ⟨1, 0, 0⟩⟩)
      = customerMapUnlocked ⟨[]⟩
    ∧ customerMapUnlocked ⟨[]⟩ = false := by
  constructor
  · exact (customer_map_gating ⟨[]⟩).2 ⟨"due_date", "Due:", "right", some ⟨1, 0, 0⟩⟩ rfl
  · decide

/-- C7.  For a `highlight_text` filter, `applyFilter` returns the stored
`selected_text` literally, ignoring the live raw value entirely; an absent or
empty selection yields the empty string. -/
theorem highlight_text_returns_literal (eng : RegexEngine) (raw sel : JStr) :
    applyFilter eng raw (.highlight_text sel) = sel := rfl

theorem seqIdx_lt {key : String} {i : Nat} (h : seqIdx key = some i) :
    i < FIELD_SEQUENCE.length := by
  unfold seqIdx at h
  exact (List.findIdx?_eq_some_iff_findIdx_eq.mp h).1

/-- C3.  Wizard lock invariant: (1) on a fresh wizard, selecting `issue_date`
is rejected and the active field stays `invoice_number`; (2) after saving the
field at the unlocked boundary, `maxUnlockedIndex` becomes
`min (maxUnlockedIndex + 1) (len (FIELD_SEQUENCE) - 1)`; (3) after saving a
sequence field the active field becomes the first not-yet-mapped field of the
sequence; (4) neither selecting a field nor saving one ever decreases
`maxUnlockedIndex`. -/
theorem wizard_lock_invariant :
    (selectField freshWizard "issue_date" = freshWizard
        ∧ (selectField freshWizard "issue_date").activeFieldKey = "invoice_number")
      ∧ (∀ (st : WizardState) (tpl : Template) (m : FieldMapping),
          seqIdx m.field_key = some st.maxUnlockedIndex →
          ((saveField st tpl m).1).maxUnlockedIndex
            = min (st.maxUnlockedIndex + 1) (FIELD_SEQUENCE.length - 1))
      ∧ (∀ (st : WizardState) (tpl : Template) (m : FieldMapping) (i : Nat)
            (next : String),
          seqIdx m.field_key = some i →
          FIELD_SEQUENCE.find? (fun k => ¬ isFieldMapped (setField tpl m) k)
            = some next →
          ((saveField st tpl m).1).activeFieldKey = next)
      ∧ (∀ (st : WizardState) (key : String),
          st.maxUnlockedIndex ≤ (selectField st key).maxUnlockedIndex)
      ∧ (∀ (st : WizardState) (key : String) (tpl : Template),
          st.maxUnlockedIndex ≤ (advanceAfterFieldSave st key tpl).maxUnlockedIndex) := by
  refine ⟨⟨by decide, by decide⟩, ?_, ?_, ?_, ?_⟩
  · intro st tpl m hm
    simp only [saveField, advanceAfterFieldSave, hm]
    simp only [gt_iff_lt, Nat.lt_succ_self, if_true]
    cases FIELD_SEQUENCE.find? (fun k => ¬ isFieldMapped (setField tpl m) k) <;>
      simp [setCurrentFieldFromKey]
  · intro st tpl m i next hm hnext
    simp only [saveField, advanceAfterFieldSave, hm, hnext]
    by_cases hgt : i + 1 > st.maxUnlockedIndex <;> simp [hgt, setCurrentFieldFromKey]
  · intro st key
    unfold selectField
    cases h : seqIdx key with
    | none => simp [setCurrentFieldFromKey]
    | some idx =>
      by_cases hgt : idx > st.maxUnlockedIndex <;> simp [hgt, setCurrentFieldFromKey]
  · intro st key tpl
    unfold advanceAfterFieldSave
    cases h : seqIdx key with
    | none => simp
    | some savedIndex =>
      have hlen : savedIndex < FIELD_SEQUENCE.length := seqIdx_lt h
      by_cases hgt : savedIndex + 1 > st.maxUnlockedIndex
      · have hle : st.maxUnlockedIndex ≤ min (savedIndex + 1) (FIELD_SEQUENCE.length - 1) := by
          simp only [FIELD_SEQUENCE, List.length_cons, List.length_nil] at hlen ⊢
          omega
        simp only [hgt, if_true]
        cases FIELD_SEQUENCE.find? (fun k => ¬ isFieldMapped tpl k) <;>
          simpa [setCurrentFieldFromKey] using hle
      · simp only [hgt, if_false]
        cases FIELD_SEQUENCE.find? (fun k => ¬ isFieldMapped tpl k) <;>
          simp [setCurrentFieldFromKey]

/-- Witness for C3: on a fresh wizard with an empty template, saving an
`invoice_number` mapping advances `maxUnlockedIndex` to `1` and makes
`issue_date` the active field. -/
theorem wizard_lock_invariant_witness :
    ((saveField freshWizard ⟨[]⟩
        ⟨"invoice_number", "Invoice Number:", "right", some ⟨1, 40, 5⟩⟩).1).maxUnlockedIndex
      = min (0 + 1) (FIELD_SEQUENCE.length - 1)
    ∧ ((saveField freshWizard ⟨[]⟩
        ⟨"invoice_number", "Invoice Number:", "right", some ⟨1, 40, 5⟩⟩).1).activeFieldKey
      = "issue_date" := by
  constructor
  · exact wizard_lock_invariant.2.1 freshWizard ⟨[]⟩
      ⟨"invoice_number", "Invoice Number:", "right", some ⟨1, 40, 5⟩⟩ (by decide)
  · exact wizard_lock_invariant.2.2.1 freshWizard ⟨[]⟩
      ⟨"invoice_number", "Invoice Number:", "right", some ⟨1, 40, 5⟩⟩ 0 "issue_date"
      (by decide) (by decide)

theorem firstMinBy_go {α : Type} (lt : α → α → Bool)
    (htr : ∀ a b c, lt a b = true → lt b c = true → lt a c = true)
    (hirr : ∀ a, lt a a = false) :
    ∀ (l : List α) (a v : α),
      (l.foldl
          (fun acc b =>
            match acc with
            | none => some b
            | some x => if lt b x then some b else acc)
          (some a)) = some v →
      (v = a ∨ v ∈ l) ∧ (v = a ∨ lt v a = true) ∧ ∀ b ∈ l, lt b v = false := by
  intro l
  induction l with
  | nil =>
    intro a v hv
    simp only [List.foldl_nil, Option.some.injEq] at hv
    exact ⟨Or.inl hv.symm, Or.inl hv.symm, by simp⟩
  | cons c t ih =>
    intro a v hv
    simp only [List.foldl_cons] at hv
    by_cases hca : lt c a = true
    · rw [if_pos hca] at hv
      obtain ⟨hmem, hrel, hall⟩ := ih c v hv
      refine ⟨?_, ?_, ?_⟩
      · rcases hmem with h | h
        · exact Or.inr (h ▸ List.mem_cons_self c t)
        · exact Or.inr (List.mem_cons_of_mem c h)
      · rcases hrel with h | h
        · exact Or.inr (h ▸ hca)
        · exact Or.inr (htr v c a h hca)
      · intro b hb
        rcases List.mem_cons.mp hb with rfl | hbt
        · rcases hrel with h | h
          · rw [h]; exact hirr b
          · cases hbv : lt b v
            · rfl
            · exact absurd (htr b v b hbv h) (by simp [hirr b])
        · exact hall b hbt
    · rw [if_neg hca] at hv
      obtain ⟨hmem, hrel, hall⟩ := ih a v hv
      refine ⟨?_, ?_, ?_⟩
      · rcases hmem with h | h
        · exact Or.inl h
        · exact Or.inr (List.mem_cons_of_mem c h)
      · exact hrel
      · intro b hb
        rcases List.mem_cons.mp hb with rfl | hbt
        · rcases hrel with h | h
          · subst h
            cases hbv : lt b v
            · rfl
            · exact absurd hbv (by simp [hca])
          · cases hbv : lt b v
            · rfl
            · exact absurd (htr b v a hbv h) (by simp [hca])
        · exact hall b hbt

theorem firstMinBy_spec {α : Type} (lt : α → α → Bool)
    (htr : ∀ a b c, lt a b = true → lt b c = true → lt a c = true)
    (hirr : ∀ a, lt a a = false) (l : List α) :
    (firstMinBy lt l = none ↔ l = [])
      ∧ ∀ v, firstMinBy lt l = some v → v ∈ l ∧ ∀ b ∈ l, lt b v = false := by
  cases l with
  | nil => exact ⟨by simp [firstMinBy], by simp [firstMinBy]⟩
  | cons c t =>
    constructor
    · constructor
      · intro h
        exfalso
        have : ∀ (t' : List α) (a : α),
            (t'.foldl
                (fun acc b =>
                  match acc with
                  | none => some b
                  | some x => if lt b x then some b else acc)
                (some a)) ≠ none := by
          intro t'
          induction t' with
          | nil => intro a h; simp at h
          | cons d t'' ih =>
            intro a h
            simp only [List.foldl_cons] at h
            by_cases hda : lt d a = true
            · rw [if_pos hda] at h; exact ih d h
            · rw [if_neg hda] at h; exact ih a h
        exact this t c (by simpa [firstMinBy] using h)
      · intro h; cases h
    · intro v hv
      have := firstMinBy_go lt htr hirr t c v (by simpa [firstMinBy] using hv)
      obtain ⟨hmem, hrel, hall⟩ := this
      refine ⟨?_, ?_⟩
      · rcases hmem with h | h
        · exact h ▸ List.mem_cons_self c t
        · exact List.mem_cons_of_mem c h
      · intro b hb
        rcases List.mem_cons.mp hb with rfl | hbt
        · rcases hrel with h | h
          · rw [h]; exact hirr b
          · cases hbv : lt b v
            · rfl
            · exact absurd (htr b v b hbv h) (by simp [hirr b])
        · exact hall b hbt

theorem ltRight_trans (a b c : TextBlock) (h1 : ltRight a b = true)
    (h2 : ltRight b c = true) : ltRight a c = true := by
  simp only [ltRight, decide_eq_true_eq] at *
  linarith

theorem ltRight_irrefl (a : TextBlock) : ltRight a a = false := by
  simp [ltRight]

theorem ltBelow_trans (cx : ℚ) (a b c : TextBlock) (h1 : ltBelow cx a b = true)
    (h2 : ltBelow cx b c = true) : ltBelow cx a c = true := by
  unfold ltBelow at h1 h2 ⊢
  by_cases hab : a.bbox.y0 = b.bbox.y0 <;> by_cases hbc : b.bbox.y0 = c.bbox.y0
  · rw [if_neg (by simp [hab])] at h1
    rw [if_neg (by simp [hbc])] at h2
    rw [if_neg (by simp [hab, hbc])]
    simp only [decide_eq_true_eq] at h1 h2 ⊢
    exact lt_trans h1 h2
  · rw [if_pos hbc] at h2
    rw [if_pos (by rw [hab]; exact hbc)]
    simp only [decide_eq_true_eq] at h2 ⊢
    rw [hab]; exact h2
  · rw [if_pos hab] at h1
    rw [if_pos (by rw [← hbc]; exact hab)]
    simp only [decide_eq_true_eq] at h1 ⊢
    rw [← hbc]; exact h1
  · rw [if_pos hab] at h1
    rw [if_pos hbc] at h2
    simp only [decide_eq_true_eq] at h1 h2
    have hac : a.bbox.y0 < c.bbox.y0 := lt_trans h1 h2
    rw [if_pos (ne_of_lt hac)]
    simpa using hac

theorem ltBelow_irrefl (cx : ℚ) (a : TextBlock) : ltBelow cx a a = false := by
  simp [ltBelow]

/-- C5.  The `below` direction of `findValueBlock`: the candidate set is
exactly the blocks whose top lies strictly below the label's bottom plus a
1-unit gap; the result is `none` exactly when that set is empty, and otherwise
it is a candidate that no other candidate beats in the order
(vertical distance, then horizontal-center distance to the label's center);
in particular of two candidates at equal vertical distance the one whose
horizontal center is closer to the label's horizontal center is returned. -/
theorem findValueBlock_below_spec (blocks : List TextBlock) (label : TextBlock) :
    (findValueBlock blocks label .below = none ↔
        ∀ b ∈ blocks, ¬ (b.bbox.y0 > label.bbox.y1 + 1))
      ∧ (∀ v, findValueBlock blocks label .below = some v →
          v ∈ blocks ∧ v.bbox.y0 > label.bbox.y1 + 1
            ∧ ∀ b ∈ blocks, b.bbox.y0 > label.bbox.y1 + 1 →
                (v.bbox.y0 < b.bbox.y0
                  ∨ (v.bbox.y0 = b.bbox.y0
                      ∧ |(v.bbox.x0 + v.bbox.x1) / 2 - (label.bbox.x0 + label.bbox.x1) / 2|
                          ≤ |(b.bbox.x0 + b.bbox.x1) / 2
                              - (label.bbox.x0 + label.bbox.x1) / 2|)))
      ∧ (∀ b1 b2 : TextBlock, b1.bbox.y0 > label.bbox.y1 + 1 →
          b2.bbox.y0 > label.bbox.y1 + 1 → b1.bbox.y0 = b2.bbox.y0 →
          |(b1.bbox.x0 + b1.bbox.x1) / 2 - (label.bbox.x0 + label.bbox.x1) / 2|
              < |(b2.bbox.x0 + b2.bbox.x1) / 2 - (label.bbox.x0 + label.bbox.x1) / 2| →
          findValueBlock [b1, b2] label .below = some b1
            ∧ findValueBlock [b2, b1] label .below = some b1) := by
  have hspec := firstMinBy_spec (ltBelow ((label.bbox.x0 + label.bbox.x1) / 2))
    (ltBelow_trans _) (ltBelow_irrefl _)
    (blocks.filter (fun b => b.bbox.y0 > label.bbox.y1 + 1))
  refine ⟨?_, ?_, ?_⟩
  · show firstMinBy _ _ = none ↔ _
    rw [hspec.1, List.filter_eq_nil_iff]
    simp
  · intro v hv
    obtain ⟨hmem, hall⟩ := hspec.2 v hv
    rw [List.mem_filter] at hmem
    refine ⟨hmem.1, by simpa using hmem.2, ?_⟩
    intro b hb hbc
    have hbf : b ∈ blocks.filter (fun b => b.bbox.y0 > label.bbox.y1 + 1) := by
      rw [List.mem_filter]; exact ⟨hb, by simpa using hbc⟩
    have hlt := hall b hbf
    unfold ltBelow at hlt
    by_cases hby : b.bbox.y0 = v.bbox.y0
    · rw [if_neg (by simp [hby])] at hlt
      simp only [decide_eq_false_iff_not, not_lt] at hlt
      exact Or.inr ⟨hby.symm, hlt⟩
    · rw [if_pos hby] at hlt
      simp only [decide_eq_false_iff_not, not_lt] at hlt
      exact Or.inl (lt_of_le_of_ne hlt (fun h => hby h.symm))
  · intro b1 b2 h1 h2 heq hlt
    have hlt21 : ltBelow ((label.bbox.x0 + label.bbox.x1) / 2) b2 b1 = false := by
      unfold ltBelow
      rw [if_neg (by simp [heq])]
      simp only [decide_eq_false_iff_not, not_lt]
      exact le_of_lt hlt
    have hlt12 : ltBelow ((label.bbox.x0 + label.bbox.x1) / 2) b1 b2 = true := by
      unfold ltBelow
      rw [if_neg (by simp [heq])]
      simpa using hlt
    constructor
    · show firstMinBy _ (List.filter _ [b1, b2]) = some b1
      have hf : List.filter (fun b => decide (b.bbox.y0 > label.bbox.y1 + 1)) [b1, b2]
          = [b1, b2] := by
        simp [List.filter_cons, h1, h2]
      rw [hf]
      simp [firstMinBy, hlt21]
    · show firstMinBy _ (List.filter _ [b2, b1]) = some b1
      have hf : List.filter (fun b => decide (b.bbox.y0 > label.bbox.y1 + 1)) [b2, b1]
          = [b2, b1] := by
        simp [List.filter_cons, h1, h2]
      rw [hf]
      simp [firstMinBy, hlt12]

/-- Witness for C5: for a label with center 5, of the two candidate blocks at
equal vertical distance the one with horizontal center 4 beats the one with
horizontal center 35, in either list order. -/
theorem findValueBlock_below_witness :
    findValueBlock
        [⟨2, ⟨2, 20, 6, 25⟩, 20⟩, ⟨3, ⟨30, 20, 40, 25⟩, 20⟩]
        ⟨1, ⟨0, 0, 10, 10⟩, 0⟩ .below = some ⟨2, ⟨2, 20, 6, 25⟩, 20⟩
      ∧ findValueBlock
        [⟨3, ⟨30, 20, 40, 25⟩, 20⟩, ⟨2, ⟨2, 20, 6, 25⟩, 20⟩]
        ⟨1, ⟨0, 0, 10, 10⟩, 0⟩ .below = some ⟨2, ⟨2, 20, 6, 25⟩, 20⟩ :=
  (findValueBlock_below_spec [⟨2, ⟨2, 20, 6, 25⟩, 20⟩, ⟨3, ⟨30, 20, 40, 25⟩, 20⟩]
      ⟨1, ⟨0, 0, 10, 10⟩, 0⟩).2.2
    ⟨2, ⟨2, 20, 6, 25⟩, 20⟩ ⟨3, ⟨30, 20, 40, 25⟩, 20⟩
    (by norm_num) (by norm_num) (by norm_num) (by norm_num)

/-- C6.  The `right` direction of `findValueBlock`: candidates are exactly the
blocks whose `line_y` is within 2.5 units of the label's and whose left edge
is at or after the label's right edge minus a 0.5 slack; the result is `none`
exactly when there is no candidate, and otherwise a candidate with minimal
`x0`. -/
theorem findValueBlock_right_spec (blocks : List TextBlock) (label : TextBlock) :
    (findValueBlock blocks label .right = none ↔
        ∀ b ∈ blocks,
          ¬ (|b.line_y - label.line_y| ≤ 5 / 2 ∧ b.bbox.x0 ≥ label.bbox.x1 - 1 / 2))
      ∧ (∀ v, findValueBlock blocks label .right = some v →
          v ∈ blocks ∧ |v.line_y - label.line_y| ≤ 5 / 2
            ∧ v.bbox.x0 ≥ label.bbox.x1 - 1 / 2
            ∧ ∀ b ∈ blocks,
                |b.line_y - label.line_y| ≤ 5 / 2 → b.bbox.x0 ≥ label.bbox.x1 - 1 / 2 →
                v.bbox.x0 ≤ b.bbox.x0) := by
  have hspec := firstMinBy_spec ltRight ltRight_trans ltRight_irrefl
    ((blocks.filter (fun b => |b.line_y - label.line_y| ≤ 5 / 2)).filter
      (fun b => b.bbox.x0 ≥ label.bbox.x1 - 1 / 2))
  constructor
  · show firstMinBy _ _ = none ↔ _
    rw [hspec.1, List.filter_eq_nil_iff]
    constructor
    · intro h b hb hcand
      have hb1 : b ∈ blocks.filter (fun b => |b.line_y - label.line_y| ≤ 5 / 2) := by
        rw [List.mem_filter]; exact ⟨hb, by simpa using hcand.1⟩
      exact (h b hb1) (by simpa using hcand.2)
    · intro h b hb
      rw [List.mem_filter] at hb
      intro hx
      exact h b hb.1 ⟨by simpa using hb.2, by simpa using hx⟩
  · intro v hv
    obtain ⟨hmem, hall⟩ := hspec.2 v hv
    rw [List.mem_filter, List.mem_filter] at hmem
    refine ⟨hmem.1.1, by simpa using hmem.1.2, by simpa using hmem.2, ?_⟩
    intro b hb hc1 hc2
    have hbf : b ∈ (blocks.filter (fun b => |b.line_y - label.line_y| ≤ 5 / 2)).filter
        (fun b => b.bbox.x0 ≥ label.bbox.x1 - 1 / 2) := by
      rw [List.mem_filter, List.mem_filter]
      exact ⟨⟨hb, by simpa using hc1⟩, by simpa using hc2⟩
    have hlt := hall b hbf
    simp only [ltRight, decide_eq_false_iff_not, not_lt] at hlt
    exact hlt

/-- Witness for C6, the example of the specification: with a label at
`{x0:0,y0:10,x1:50,y1:20}`, baseline 10, the same-line block at
`{x0:60,…,line_y:10}` is returned rather than the different-line block at
`{…,line_y:30}`. -/
theorem findValueBlock_right_witness :
    findValueBlock
        [⟨2, ⟨60, 10, 100, 20⟩, 10⟩, ⟨3, ⟨0, 30, 50, 40⟩, 30⟩]
        ⟨1, ⟨0, 10, 50, 20⟩, 10⟩ .right = some ⟨2, ⟨60, 10, 100, 20⟩, 10⟩ := by
  have hspec := findValueBlock_right_spec
    [⟨2, ⟨60, 10, 100, 20⟩, 10⟩, ⟨3, ⟨0, 30, 50, 40⟩, 30⟩] ⟨1, ⟨0, 10, 50, 20⟩, 10⟩
  cases hres : findValueBlock
      [⟨2, ⟨60, 10, 100, 20⟩, 10⟩, ⟨3, ⟨0, 30, 50, 40⟩, 30⟩]
      ⟨1, ⟨0, 10, 50, 20⟩, 10⟩ .right with
  | none =>
    exfalso
    exact (hspec.1.mp hres ⟨2, ⟨60, 10, 100, 20⟩, 10⟩ (by simp)) (by norm_num)
  | some v =>
    obtain ⟨hv, hc1, _, _⟩ := hspec.2 v hres
    rcases List.mem_cons.mp hv with rfl | hv2
    · rfl
    · rcases List.mem_cons.mp hv2 with rfl | hv3
      · exfalso
        norm_num at hc1
      · exact absurd hv3 (List.not_mem_nil v)

/-- C8.  For a `regex` filter whose `group` is absent or non-finite (modelled
as `none` by the `Number.isFinite` test), a successful match returns the
trimmed text of capture group 1 — the same result as an explicit `group = 1`. -/
theorem regex_group_default (eng : RegexEngine) (raw pat : JStr)
    (gs : List (Option JStr)) (hpat : pat ≠ [])
    (hexec : eng.exec pat (trimWS raw) = some (some gs)) :
    applyFilter eng raw (.regex pat none) = trimWS ((getGroup gs 1).getD [])
      ∧ applyFilter eng raw (.regex pat none) = applyFilter eng raw (.regex pat (some 1)) := by
  constructor
  · simp [applyFilter, hpat, hexec, Option.getD]
  · simp [applyFilter, hpat, hexec, Option.getD]

/-- Matcher for the literal pattern `/INV-(\d+)/i` at one position: the four
characters `INV-` case-insensitively, then a maximal nonempty digit run as
capture group 1. -/
def execINVAt (l : JStr) : Option (JStr × JStr) :=
  match l with
  | c1 :: c2 :: c3 :: c4 :: rest =>
    if jsLower c1 = 'i' ∧ jsLower c2 = 'n' ∧ jsLower c3 = 'v' ∧ c4 = '-' then
      let ds := rest.takeWhile Char.isDigit
      if ds.length > 0 then some (c1 :: c2 :: c3 :: c4 :: ds, ds) else none
    else none
  | _ => none

/-- First match of `/INV-(\d+)/i`, scanning left to right. -/
def execINVScan : JStr → Option (JStr × JStr)
  | [] => none
  | c :: t =>
    match execINVAt (c :: t) with
    | some r => some r
    | none => execINVScan t

/-- Regex engine implementing the documented JS semantics of the single
pattern `INV-(\d+)` with the `i` flag (all other patterns are irrelevant to
the statements using this engine). -/
def engINV : RegexEngine :=
  ⟨fun pat s =>
    if pat = ("INV-(\\d+)".toList) then
      some ((execINVScan s).map (fun r => [some r.1, some r.2]))
    else none⟩

/-- Witness for C8, the example of the specification: with `group` omitted,
`apply("Invoice INV-0042", {type:"regex", pattern:"INV-(\d+)"})` returns
`"0042"`. -/
theorem regex_group_default_witness :
    applyFilter engINV ("Invoice INV-0042".toList)
        (.regex ("INV-(\\d+)".toList) none) = "0042".toList := by
  have h := (regex_group_default engINV ("Invoice INV-0042".toList)
    ("INV-(\\d+)".toList) [some ("INV-0042".toList), some ("0042".toList)]
    (by decide) (by decide)).1
  rw [h]
  decide

/-- C4 (amended).  `applyFilter` is a total function, and on invalid filter
parameters it degrades as follows: an empty required token (or an empty regex
pattern) returns the trimmed raw value unchanged, a regex that fails to
compile or does not match returns the trimmed raw value unchanged, and a
successful regex match whose requested capture group does not exist returns
the empty string. -/
theorem filter_fallbacks (eng : RegexEngine) (raw : JStr) :
    (applyFilter eng raw (.after_token []) = trimWS raw)
      ∧ (applyFilter eng raw (.before_token []) = trimWS raw)
      ∧ (∀ r, applyFilter eng raw (.between_tokens [] r) = trimWS raw)
      ∧ (∀ l, applyFilter eng raw (.between_tokens l []) = trimWS raw)
      ∧ (applyFilter eng raw (.regex [] none) = trimWS raw)
      ∧ (∀ pat grp, pat ≠ [] → eng.exec pat (trimWS raw) = none →
          applyFilter eng raw (.regex pat grp) = trimWS raw)
      ∧ (∀ pat grp, pat ≠ [] → eng.exec pat (trimWS raw) = some none →
          applyFilter eng raw (.regex pat grp) = trimWS raw)
      ∧ (∀ pat grp gs, pat ≠ [] → eng.exec pat (trimWS raw) = some (some gs) →
          getGroup gs (grp.getD 1) = none →
          applyFilter eng raw (.regex pat grp) = []) := by
  refine ⟨rfl, rfl, fun r => rfl, fun l => by simp [applyFilter], rfl, ?_, ?_, ?_⟩
  · intro pat grp hpat hexec
    simp [applyFilter, hpat, hexec]
  · intro pat grp hpat hexec
    simp [applyFilter, hpat, hexec]
  · intro pat grp gs hpat hexec hgrp
    have h : applyFilter eng raw (.regex pat grp)
        = trimWS ((getGroup gs (grp.getD 1)).getD []) := by
      simp [applyFilter, hpat, hexec]
    rw [h, hgrp]
    rfl

/-- Witness for C4 (amended), instantiating the regex fallbacks: a pattern the
engine cannot compile falls back to the trimmed raw value, and a match of
`/INV-(\d+)/i` on `"Invoice INV-0042"` with the nonexistent capture group 5
yields the empty string. -/
theorem filter_fallbacks_witness :
    applyFilter engINV (" x ".toList) (.regex ("(".toList) none) = "x".toList
      ∧ applyFilter engINV ("Invoice INV-0042".toList)
          (.regex ("INV-(\\d+)".toList) (some 5)) = [] := by
  constructor
  · have h := (filter_fallbacks engINV (" x ".toList)).2.2.2.2.2.1
      ("(".toList) none (by decide) (by decide)
    rw [h]
    decide
  · exact (filter_fallbacks engINV ("Invoice INV-0042".toList)).2.2.2.2.2.2.2
      ("INV-(\\d+)".toList) (some 5)
      [some ("INV-0042".toList), some ("0042".toList)]
      (by decide) (by decide) (by decide)

/-- Counterexample to C4 as stated: on a successful regex match whose
requested capture group is missing, `applyFilter` returns the empty string,
not the trimmed raw value — group 5 of `/INV-(\d+)/i` applied to
`"Invoice INV-0042"`. -/
theorem filter_missing_group_cex :
    applyFilter engINV ("Invoice INV-0042".toList)
        (.regex ("INV-(\\d+)".toList) (some 5))
      ≠ trimWS ("Invoice INV-0042".toList) := by
  decide

theorem dropWhile_head_false {α} {p : α → Bool} {l : List α} {c : α} {t : List α}
    (h : l.dropWhile p = c :: t) : p c = false := by
  induction l with
  | nil => simp [List.dropWhile] at h
  | cons a t' ih =>
    by_cases ha : p a
    · rw [List.dropWhile_cons_of_pos ha] at h
      exact ih h
    · rw [List.dropWhile_cons_of_neg ha] at h
      cases h
      exact Bool.eq_false_iff.mpr ha

theorem ltrim_head_false {l : JStr} {c : Char} {t : JStr} (h : ltrimWS l = c :: t) :
    wsB c = false := dropWhile_head_false h

theorem rtrim_pre (l : JStr) : rtrimWS l <+: l := by
  apply List.reverse_suffix.mp
  simpa [rtrimWS] using List.dropWhile_suffix (l := l.reverse) wsB

theorem rtrim_decomp (l : JStr) : ∃ w, l = rtrimWS l ++ w ∧ ∀ x ∈ w, wsB x = true := by
  refine ⟨(l.reverse.takeWhile wsB).reverse, ?_, ?_⟩
  · calc l = l.reverse.reverse := (List.reverse_reverse l).symm
    _ = (l.reverse.takeWhile wsB ++ l.reverse.dropWhile wsB).reverse := by
        rw [List.takeWhile_append_dropWhile]
    _ = (l.reverse.dropWhile wsB).reverse ++ (l.reverse.takeWhile wsB).reverse := by
        rw [List.reverse_append]
    _ = rtrimWS l ++ (l.reverse.takeWhile wsB).reverse := rfl
  · intro x hx
    rw [List.mem_reverse] at hx
    exact List.mem_takeWhile_imp hx

theorem rtrim_getLast_false {l : JStr} {c : Char} (h : (rtrimWS l).getLast? = some c) :
    wsB c = false := by
  unfold rtrimWS at h
  rw [List.getLast?_reverse] at h
  cases hd : l.reverse.dropWhile wsB with
  | nil => rw [hd] at h; simp at h
  | cons a t =>
    rw [hd] at h
    simp only [List.head?_cons, Option.some.injEq] at h
    exact h ▸ dropWhile_head_false hd

theorem ltrim_eq_self {l : JStr} (h : ∀ c, l.head? = some c → wsB c = false) :
    ltrimWS l = l := by
  cases l with
  | nil => rfl
  | cons c t => exact List.dropWhile_cons_of_neg (by simp [h c rfl])

theorem rtrim_eq_self {l : JStr} (h : ∀ c, l.getLast? = some c → wsB c = false) :
    rtrimWS l = l := by
  unfold rtrimWS
  have h2 : l.reverse.dropWhile wsB = l.reverse := by
    apply ltrim_eq_self
    intro c hc
    rw [List.head?_reverse] at hc
    exact h c hc
  rw [h2, List.reverse_reverse]

theorem ltrim_getLast?_eq {l : JStr} (hne : ltrimWS l ≠ []) :
    (ltrimWS l).getLast? = l.getLast? := by
  have hsuf := List.dropWhile_suffix (l := l) wsB
  obtain ⟨w, hw⟩ := hsuf
  conv_rhs => rw [← hw]
  exact (List.getLast?_append_of_ne_nil w hne).symm

theorem trim_head_false {l : JStr} {c : Char} {t : JStr} (h : trimWS l = c :: t) :
    wsB c = false := by
  unfold trimWS at h
  have hpre := rtrim_pre (ltrimWS l)
  rw [h] at hpre
  obtain ⟨w, hw⟩ := hpre
  exact ltrim_head_false (l := l) (by rw [← hw]; rfl)

theorem trim_getLast_false {l : JStr} {c : Char} (h : (trimWS l).getLast? = some c) :
    wsB c = false := rtrim_getLast_false h

theorem trim_idem (l : JStr) : trimWS (trimWS l) = trimWS l := by
  unfold trimWS
  have h1 : ltrimWS (rtrimWS (ltrimWS l)) = rtrimWS (ltrimWS l) := by
    apply ltrim_eq_self
    intro c hc
    cases hr : rtrimWS (ltrimWS l) with
    | nil => rw [hr] at hc; simp at hc
    | cons a t =>
      rw [hr] at hc
      simp only [List.head?_cons, Option.some.injEq] at hc
      exact hc ▸ trim_head_false (l := l) hr
  rw [h1]
  apply rtrim_eq_self
  intro c hc
  exact rtrim_getLast_false hc

theorem trim_eq_self {l : JStr} (hh : ∀ c, l.head? = some c → wsB c = false)
    (hl : ∀ c, l.getLast? = some c → wsB c = false) : trimWS l = l := by
  unfold trimWS
  rw [ltrim_eq_self hh, rtrim_eq_self hl]

theorem trim_mid (l : JStr) : trimWS l <:+: l :=
  ((rtrim_pre (ltrimWS l)).isInfix).trans ((List.dropWhile_suffix wsB).isInfix)

theorem ws_not_digit {c : Char} (h : wsB c = true) : c.isDigit = false := by
  simp only [wsB, Char.isWhitespace, Bool.or_eq_true, decide_eq_true_eq] at h
  rcases h with (((h | h) | h) | h) <;> subst h <;> decide

theorem ws_not_alpha {c : Char} (h : wsB c = true) : c.isAlpha = false := by
  simp only [wsB, Char.isWhitespace, Bool.or_eq_true, decide_eq_true_eq] at h
  rcases h with (((h | h) | h) | h) <;> subst h <;> decide

theorem digit_not_ws {c : Char} (h : c.isDigit = true) : wsB c = false := by
  cases hw : wsB c
  · rfl
  · rw [ws_not_digit hw] at h; cases h

theorem alpha_not_ws {c : Char} (h : c.isAlpha = true) : wsB c = false := by
  cases hw : wsB c
  · rfl
  · rw [ws_not_alpha hw] at h; cases h

theorem digits_only_settings_idem (raw : JStr) :
    applyFilterSettings (applyFilterSettings raw .digits_only) .digits_only
      = applyFilterSettings raw .digits_only := by
  show (trimWS ((trimWS raw).filter Char.isDigit)).filter Char.isDigit
    = (trimWS raw).filter Char.isDigit
  have htr : trimWS ((trimWS raw).filter Char.isDigit) = (trimWS raw).filter Char.isDigit := by
    apply trim_eq_self
    · intro c hc
      cases hl : (trimWS raw).filter Char.isDigit with
      | nil => rw [hl] at hc; simp at hc
      | cons a t =>
        rw [hl] at hc
        simp only [List.head?_cons, Option.some.injEq] at hc
        have ha : a ∈ (trimWS raw).filter Char.isDigit := by rw [hl]; simp
        exact hc ▸ digit_not_ws (List.of_mem_filter ha)
    · intro c hc
      have hmem : c ∈ (trimWS raw).filter Char.isDigit := by
        cases hl : (trimWS raw).filter Char.isDigit with
        | nil => rw [hl] at hc; simp at hc
        | cons a t =>
          rw [hl] at hc
          exact List.mem_of_mem_getLast? hc
      exact digit_not_ws (List.of_mem_filter hmem)
  rw [htr, List.filter_filter]
  apply List.filter_congr
  intro c _
  simp

/-- A string contains a parenthesized group `(...)` somewhere. -/
def HasGroup (l : JStr) : Prop :=
  ∃ p mid s : JStr, l = p ++ '(' :: (mid ++ ')' :: s)

theorem dropWhile_eq_drop_takeWhile {α} (p : α → Bool) (l : List α) :
    l.drop (l.takeWhile p).length = l.dropWhile p := by
  have h := List.drop_left (l.takeWhile p) (l.dropWhile p)
  rw [List.takeWhile_append_dropWhile] at h
  exact h

theorem dropWhile_ne_cons {c : Char} {l : JStr} (h : c ∈ l) :
    ∃ r, l.dropWhile (fun x => x ≠ c) = c :: r := by
  induction l with
  | nil => cases h
  | cons a t ih =>
    by_cases ha : a = c
    · subst ha
      exact ⟨t, List.dropWhile_cons_of_neg (by simp)⟩
    · rcases List.mem_cons.mp h with heq | ht
      · exact absurd heq.symm ha
      · obtain ⟨r, hr⟩ := ih ht
        exact ⟨r, by rw [List.dropWhile_cons_of_pos (by simp [ha]), hr]⟩

theorem hasGroup_structure {l : JStr} (h : HasGroup l) :
    ∃ r, l.dropWhile (fun c => c ≠ '(') = '(' :: r ∧ ')' ∈ r := by
  obtain ⟨p, mid, s, heq⟩ := h
  subst heq
  induction p with
  | nil =>
    refine ⟨mid ++ ')' :: s, ?_, by simp⟩
    rw [List.nil_append, List.dropWhile_cons_of_neg (by simp)]
  | cons a p' ih =>
    by_cases ha : a = '('
    · subst ha
      refine ⟨p' ++ '(' :: (mid ++ ')' :: s), ?_, by simp⟩
      rw [List.cons_append, List.dropWhile_cons_of_neg (by simp)]
    · obtain ⟨r, hr, hmem⟩ := ih
      refine ⟨r, ?_, hmem⟩
      rw [List.cons_append, List.dropWhile_cons_of_pos (by simp [ha]), hr]

theorem hasGroup_of_splitGroup {l : JStr} {pq : JStr × JStr}
    (h : splitGroup l = some pq) : HasGroup l := by
  unfold splitGroup at h
  split at h
  case h_1 c rest heq =>
    split at h
    case h_1 c2 rest2 heq2 =>
      have hl : l = l.takeWhile (fun c => c ≠ '(') ++ ('(' :: rest) := by
        conv_lhs => rw [← List.take_append_drop
          (l.takeWhile (fun c => c ≠ '(')).length l]
        rw [← List.prefix_iff_eq_take.mp (List.takeWhile_prefix _), heq]
      have hrest : rest = rest.takeWhile (fun c => c ≠ ')') ++ (')' :: rest2) := by
        conv_lhs => rw [← List.take_append_drop
          (rest.takeWhile (fun c => c ≠ ')')).length rest]
        rw [← List.prefix_iff_eq_take.mp (List.takeWhile_prefix _), heq2]
      rw [hrest] at hl
      exact ⟨_, _, rest2, hl⟩
    case h_2 => exact absurd h (by simp)
  case h_2 => exact absurd h (by simp)

theorem splitGroup_eq_none_of_not_hasGroup {l : JStr} (h : ¬ HasGroup l) :
    splitGroup l = none := by
  cases hv : splitGroup l with
  | none => rfl
  | some pq => exact absurd (hasGroup_of_splitGroup hv) h

theorem splitGroup_fst_no_open {l : JStr} {pq : JStr × JStr}
    (h : splitGroup l = some pq) : '(' ∉ pq.1 := by
  unfold splitGroup at h
  split at h
  case h_1 c rest heq =>
    split at h
    case h_1 c2 rest2 heq2 =>
      simp only [Option.some.injEq] at h
      intro hmem
      rw [← h] at hmem
      have hmem2 : '(' ∈ l.takeWhile (fun c => c ≠ '(') :=
        (rtrim_pre _).mem hmem
      have := List.mem_takeWhile_imp hmem2
      simp at this
    case h_2 => exact absurd h (by simp)
  case h_2 => exact absurd h (by simp)

theorem hasGroup_append_drop {xs ys : JStr} (hx : '(' ∉ xs)
    (h : HasGroup (xs ++ ys)) : HasGroup ys := by
  obtain ⟨p, mid, s, heq⟩ := h
  induction xs generalizing p with
  | nil => exact ⟨p, mid, s, by simpa using heq⟩
  | cons x xs' ih =>
    cases p with
    | nil =>
      simp only [List.cons_append, List.nil_append, List.cons.injEq] at heq
      exact absurd (heq.1 ▸ List.mem_cons_self x xs') hx
    | cons p0 p' =>
      simp only [List.cons_append] at heq
      injection heq with h1 h2
      exact ih (fun hm => hx (List.mem_cons_of_mem x hm)) p' h2

theorem hasGroup_of_mid {m l : JStr} (hinf : m <:+: l) (h : HasGroup m) :
    HasGroup l := by
  obtain ⟨p, mid, s, heq⟩ := h
  obtain ⟨u, v, huv⟩ := hinf
  refine ⟨u ++ p, mid, s ++ v, ?_⟩
  rw [← huv, heq]
  simp

theorem splitGroup_isSome_of_hasGroup {l : JStr} (h : HasGroup l) :
    ∃ pq, splitGroup l = some pq := by
  obtain ⟨r, hr, hmem⟩ := hasGroup_structure h
  obtain ⟨r2, hr2⟩ := dropWhile_ne_cons hmem
  refine ⟨(rtrimWS (l.takeWhile (fun c => c ≠ '(')), ltrimWS r2), ?_⟩
  unfold splitGroup
  rw [dropWhile_eq_drop_takeWhile]
  simp only [hr]
  rw [dropWhile_eq_drop_takeWhile]
  simp only [hr2]

theorem stripCore_of_none {l : JStr} (h : splitGroup l = none) : stripCore l = l := by
  rw [stripCore]
  split
  · rfl
  next pq hpq =>
    rw [h] at hpq
    cases hpq

theorem stripCore_of_some {l : JStr} {pq : JStr × JStr} (h : splitGroup l = some pq) :
    stripCore l = pq.1 ++ ' ' :: stripCore pq.2 := by
  rw [stripCore]
  split
  next heq =>
    rw [heq] at h
    cases h
  next pq' hpq =>
    rw [h] at hpq
    injection hpq with hpq
    rw [hpq]

theorem stripCore_noGroup (l : JStr) : ¬ HasGroup (stripCore l) := by
  induction l using stripCore.induct with
  | case1 l hsg =>
    rw [stripCore_of_none hsg]
    intro h
    obtain ⟨pq, hpq⟩ := splitGroup_isSome_of_hasGroup h
    rw [hsg] at hpq
    cases hpq
  | case2 l pq hsg ih =>
    rw [stripCore_of_some hsg]
    intro h
    have hno : '(' ∉ pq.1 ++ [' '] := by
      intro hm
      rcases List.mem_append.mp hm with hm | hm
      · exact splitGroup_fst_no_open hsg hm
      · simp at hm
    have heq : pq.1 ++ ' ' :: stripCore pq.2 = (pq.1 ++ [' ']) ++ stripCore pq.2 := by
      simp
    rw [heq] at h
    exact ih (hasGroup_append_drop hno h)

theorem strip_parentheses_idem (raw : JStr) :
    applyFilterSettings (applyFilterSettings raw .strip_parentheses) .strip_parentheses
      = applyFilterSettings raw .strip_parentheses := by
  show trimWS (stripCore (trimWS (trimWS (stripCore (trimWS raw)))))
      = trimWS (stripCore (trimWS raw))
  rw [trim_idem]
  have hng : ¬ HasGroup (trimWS (stripCore (trimWS raw))) := fun h =>
    stripCore_noGroup (trimWS raw) (hasGroup_of_mid (trim_mid _) h)
  rw [stripCore_of_none (splitGroup_eq_none_of_not_hasGroup hng), trim_idem]

theorem takeWhile_app_eq {α} (p : α → Bool) (xs ys : List α)
    (hxs : ∀ x ∈ xs, p x = true) (hys : ∀ y, ys.head? = some y → p y = false) :
    (xs ++ ys).takeWhile p = xs := by
  induction xs with
  | nil =>
    cases ys with
    | nil => rfl
    | cons y t => simp [List.takeWhile_cons, hys y rfl]
  | cons x xs' ih =>
    rw [List.cons_append, List.takeWhile_cons_of_pos (hxs x (List.mem_cons_self x xs'))]
    rw [ih (fun a ha => hxs a (List.mem_cons_of_mem x ha)) ]

theorem takeWhile_drop_decomp {α} (p : α → Bool) (l : List α) :
    l = l.takeWhile p ++ l.drop (l.takeWhile p).length := by
  conv_lhs => rw [← List.take_append_drop (l.takeWhile p).length l]
  rw [← List.prefix_iff_eq_take.mp (List.takeWhile_prefix _)]

theorem eq_cons_of_head? {α} {l : List α} {a : α} (h : l.head? = some a) :
    l = a :: l.tail := by
  cases l with
  | nil => cases h
  | cons x t =>
    simp only [List.head?_cons, Option.some.injEq] at h
    rw [h]
    rfl

theorem mem_of_head? {α} {l : List α} {a : α} (h : l.head? = some a) : a ∈ l := by
  rw [eq_cons_of_head? h]
  exact List.mem_cons_self a l.tail

theorem slash_not_digit : ('/' : Char).isDigit = false := by decide

theorem slash_not_ws : wsB '/' = false := by decide

theorem slash_not_alpha : ('/' : Char).isAlpha = false := by decide

theorem m1At_inv {l m : JStr} (h : m1At l = some m) :
    ∃ d1 d2 y rest : JStr,
      l = d1 ++ '/' :: (d2 ++ '/' :: (y ++ rest))
      ∧ m = d1 ++ '/' :: (d2 ++ '/' :: y)
      ∧ (∀ c ∈ d1, c.isDigit = true) ∧ ¬ (d1.length = 0 ∨ d1.length > 2)
      ∧ (∀ c ∈ d2, c.isDigit = true) ∧ ¬ (d2.length = 0 ∨ d2.length > 2)
      ∧ (∀ c ∈ y, c.isDigit = true) ∧ y.length = 4
      ∧ endBoundaryOk rest = true := by
  unfold m1At at h
  simp only [] at h
  set d1 := l.takeWhile Char.isDigit with hd1
  set r1 := l.drop d1.length with hr1
  set d2 := r1.tail.takeWhile Char.isDigit with hd2
  set r3 := r1.tail.drop d2.length with hr3
  set y := r3.tail.takeWhile Char.isDigit with hy
  set rest := r3.tail.drop y.length with hrest
  split_ifs at h with h1 h2 h3 h4 h5
  simp only [Option.some.injEq] at h
  obtain ⟨hy4, hbd⟩ := h5
  refine ⟨d1, d2, y, rest, ?_, h.symm,
    fun c hc => List.mem_takeWhile_imp (by rw [hd1] at hc; exact hc), h1,
    fun c hc => List.mem_takeWhile_imp (by rw [hd2] at hc; exact hc), h3,
    fun c hc => List.mem_takeWhile_imp (by rw [hy] at hc; exact hc), hy4, hbd⟩
  have e1 : l = d1 ++ r1 := by
    have e := takeWhile_drop_decomp Char.isDigit l
    rw [← hd1, ← hr1] at e
    exact e
  have e2 : r1 = '/' :: r1.tail := eq_cons_of_head? h2
  have e3 : r1.tail = d2 ++ r3 := by
    have e := takeWhile_drop_decomp Char.isDigit r1.tail
    rw [← hd2, ← hr3] at e
    exact e
  have e4 : r3 = '/' :: r3.tail := eq_cons_of_head? h4
  have e5 : r3.tail = y ++ rest := by
    have e := takeWhile_drop_decomp Char.isDigit r3.tail
    rw [← hy, ← hrest] at e
    exact e
  conv_lhs => rw [e1, e2, e3, e4, e5]

theorem takeWhile_eq_self_of_all {p : Char → Bool} {y : JStr}
    (hy : ∀ c ∈ y, p c = true) : y.takeWhile p = y := by
  have h := takeWhile_app_eq p y [] hy (by intro z hz; cases hz)
  simpa using h

theorem m1At_self {d1 d2 y : JStr}
    (hd1 : ∀ c ∈ d1, c.isDigit = true) (h1 : ¬ (d1.length = 0 ∨ d1.length > 2))
    (hd2 : ∀ c ∈ d2, c.isDigit = true) (h3 : ¬ (d2.length = 0 ∨ d2.length > 2))
    (hy : ∀ c ∈ y, c.isDigit = true) (hy4 : y.length = 4) :
    m1At (d1 ++ '/' :: (d2 ++ '/' :: y)) = some (d1 ++ '/' :: (d2 ++ '/' :: y)) := by
  have t1 : (d1 ++ '/' :: (d2 ++ '/' :: y)).takeWhile Char.isDigit = d1 :=
    takeWhile_app_eq _ _ _ hd1 (by
      intro z hz
      simp only [List.head?_cons, Option.some.injEq] at hz
      rw [← hz]
      exact slash_not_digit)
  have t2 : (d2 ++ '/' :: y).takeWhile Char.isDigit = d2 :=
    takeWhile_app_eq _ _ _ hd2 (by
      intro z hz
      simp only [List.head?_cons, Option.some.injEq] at hz
      rw [← hz]
      exact slash_not_digit)
  have t3 : y.takeWhile Char.isDigit = y := takeWhile_eq_self_of_all hy
  unfold m1At
  simp only []
  rw [t1, if_neg h1, List.drop_left]
  simp only [List.head?_cons, List.tail_cons]
  rw [if_pos trivial, t2, if_neg h3, List.drop_left]
  simp only [List.head?_cons, List.tail_cons]
  rw [if_pos trivial, t3, if_pos ⟨hy4, by rw [List.drop_length]; rfl⟩]

theorem findM1_suffix {prev : Option Char} {l m : JStr} (h : findM1 prev l = some m) :
    ∃ l', l' <:+ l ∧ m1At l' = some m := by
  induction l generalizing prev with
  | nil => simp [findM1] at h
  | cons c t ih =>
    simp only [findM1] at h
    by_cases hb : boundaryOk prev = true
    · rw [if_pos hb] at h
      cases hm : m1At (c :: t) with
      | some m' =>
        rw [hm] at h
        simp only [Option.some.injEq] at h
        exact ⟨c :: t, List.suffix_refl _, by rw [hm, h]⟩
      | none =>
        rw [hm] at h
        obtain ⟨l', hs, hm'⟩ := ih h
        exact ⟨l', hs.trans (List.suffix_cons c t), hm'⟩
    · rw [if_neg hb] at h
      obtain ⟨l', hs, hm'⟩ := ih h
      exact ⟨l', hs.trans (List.suffix_cons c t), hm'⟩

theorem findM1_self {m : JStr} (hne : m ≠ []) (h : m1At m = some m) :
    findM1 none m = some m := by
  cases m with
  | nil => exact absurd rfl hne
  | cons c t =>
    simp only [findM1, boundaryOk, if_true]
    rw [h]

theorem m1At_has_slash {l m : JStr} (h : m1At l = some m) : '/' ∈ l := by
  obtain ⟨d1, d2, y, rest, hl, -⟩ := m1At_inv h
  rw [hl]
  simp

theorem findM1_eq_none {l : JStr} (h : '/' ∉ l) : ∀ prev, findM1 prev l = none := by
  induction l with
  | nil => intro prev; rfl
  | cons c t ih =>
    intro prev
    simp only [findM1]
    have hm : m1At (c :: t) = none := by
      cases hm : m1At (c :: t) with
      | none => rfl
      | some m => exact absurd (m1At_has_slash hm) h
    have ht : findM1 (some c) t = none :=
      ih (fun hmem => h (List.mem_cons_of_mem c hmem)) (some c)
    by_cases hb : boundaryOk prev = true
    · rw [if_pos hb, hm]
      exact ht
    · rw [if_neg hb]
      exact ht

theorem head?_append_left {α} {s : List α} (x : List α) (h : s ≠ []) :
    (s ++ x).head? = s.head? := by
  cases s with
  | nil => exact absurd rfl h
  | cons a t => rfl

theorem m2At_inv {l m : JStr} (h : m2At l = some m) :
    ∃ d1 s1 a s2 y rest : JStr,
      l = d1 ++ (s1 ++ (a ++ (s2 ++ (y ++ rest))))
      ∧ m = d1 ++ (s1 ++ (a ++ (s2 ++ y)))
      ∧ (∀ c ∈ d1, c.isDigit = true) ∧ ¬ (d1.length = 0 ∨ d1.length > 2)
      ∧ (∀ c ∈ s1, wsB c = true) ∧ s1 ≠ []
      ∧ (∀ c ∈ a, c.isAlpha = true) ∧ ¬ (a.length < 3 ∨ a.length > 9)
      ∧ (∀ c ∈ s2, wsB c = true) ∧ s2 ≠ []
      ∧ (∀ c ∈ y, c.isDigit = true) ∧ y.length = 4
      ∧ endBoundaryOk rest = true := by
  unfold m2At at h
  simp only [] at h
  set d1 := l.takeWhile Char.isDigit with hd1
  set r1 := l.drop d1.length with hr1
  set s1 := r1.takeWhile wsB with hs1
  set r2 := r1.drop s1.length with hr2
  set a := r2.takeWhile Char.isAlpha with ha
  set r3 := r2.drop a.length with hr3
  set s2 := r3.takeWhile wsB with hs2
  set r4 := r3.drop s2.length with hr4
  set y := r4.takeWhile Char.isDigit with hy
  set rest := r4.drop y.length with hrest
  split_ifs at h with h1 h2 h3 h4 h5
  simp only [Option.some.injEq] at h
  obtain ⟨hy4, hbd⟩ := h5
  have e1 : l = d1 ++ r1 := by
    have e := takeWhile_drop_decomp Char.isDigit l
    rw [← hd1, ← hr1] at e
    exact e
  have e2 : r1 = s1 ++ r2 := by
    have e := takeWhile_drop_decomp wsB r1
    rw [← hs1, ← hr2] at e
    exact e
  have e3 : r2 = a ++ r3 := by
    have e := takeWhile_drop_decomp Char.isAlpha r2
    rw [← ha, ← hr3] at e
    exact e
  have e4 : r3 = s2 ++ r4 := by
    have e := takeWhile_drop_decomp wsB r3
    rw [← hs2, ← hr4] at e
    exact e
  have e5 : r4 = y ++ rest := by
    have e := takeWhile_drop_decomp Char.isDigit r4
    rw [← hy, ← hrest] at e
    exact e
  refine ⟨d1, s1, a, s2, y, rest, ?_, ?_,
    fun c hc => List.mem_takeWhile_imp (by rw [hd1] at hc; exact hc), h1,
    fun c hc => List.mem_takeWhile_imp (by rw [hs1] at hc; exact hc),
    fun hnil => h2 (by rw [hnil]; rfl),
    fun c hc => List.mem_takeWhile_imp (by rw [ha] at hc; exact hc), h3,
    fun c hc => List.mem_takeWhile_imp (by rw [hs2] at hc; exact hc),
    fun hnil => h4 (by rw [hnil]; rfl),
    fun c hc => List.mem_takeWhile_imp (by rw [hy] at hc; exact hc), hy4, hbd⟩
  · conv_lhs => rw [e1, e2, e3, e4, e5]
  · rw [← h]
    simp [List.append_assoc]

theorem m2At_self {d1 s1 a s2 y : JStr}
    (hd1 : ∀ c ∈ d1, c.isDigit = true) (h1 : ¬ (d1.length = 0 ∨ d1.length > 2))
    (hs1 : ∀ c ∈ s1, wsB c = true) (h2 : s1 ≠ [])
    (ha : ∀ c ∈ a, c.isAlpha = true) (h3 : ¬ (a.length < 3 ∨ a.length > 9))
    (hs2 : ∀ c ∈ s2, wsB c = true) (h4 : s2 ≠ [])
    (hy : ∀ c ∈ y, c.isDigit = true) (hy4 : y.length = 4) :
    m2At (d1 ++ (s1 ++ (a ++ (s2 ++ y)))) = some (d1 ++ (s1 ++ (a ++ (s2 ++ y)))) := by
  have hynil : y ≠ [] := by
    intro hnil
    rw [hnil] at hy4
    cases hy4
  have t1 : (d1 ++ (s1 ++ (a ++ (s2 ++ y)))).takeWhile Char.isDigit = d1 := by
    apply takeWhile_app_eq _ _ _ hd1
    intro z hz
    rw [head?_append_left _ h2] at hz
    exact ws_not_digit (hs1 z (mem_of_head? hz))
  have t2 : (s1 ++ (a ++ (s2 ++ y))).takeWhile wsB = s1 := by
    apply takeWhile_app_eq _ _ _ hs1
    intro z hz
    have hane : a ≠ [] := by
      intro hnil
      rw [hnil] at h3
      exact h3 (Or.inl (by simp))
    rw [head?_append_left _ hane] at hz
    exact alpha_not_ws (ha z (mem_of_head? hz))
  have t3 : (a ++ (s2 ++ y)).takeWhile Char.isAlpha = a := by
    apply takeWhile_app_eq _ _ _ ha
    intro z hz
    rw [head?_append_left _ h4] at hz
    exact ws_not_alpha (hs2 z (mem_of_head? hz))
  have t4 : (s2 ++ y).takeWhile wsB = s2 := by
    apply takeWhile_app_eq _ _ _ hs2
    intro z hz
    exact digit_not_ws (hy z (mem_of_head? hz))
  have t5 : y.takeWhile Char.isDigit = y := takeWhile_eq_self_of_all hy
  unfold m2At
  simp only []
  rw [t1, if_neg h1, List.drop_left, t2]
  rw [if_neg (by simpa [List.length_eq_zero] using h2), List.drop_left, t3, if_neg h3,
    List.drop_left, t4]
  rw [if_neg (by simpa [List.length_eq_zero] using h4), List.drop_left, t5]
  rw [if_pos ⟨hy4, by rw [List.drop_length]; rfl⟩]
  simp [List.append_assoc]

theorem findM2_suffix {prev : Option Char} {l m : JStr} (h : findM2 prev l = some m) :
    ∃ l', l' <:+ l ∧ m2At l' = some m := by
  induction l generalizing prev with
  | nil => simp [findM2] at h
  | cons c t ih =>
    simp only [findM2] at h
    by_cases hb : boundaryOk prev = true
    · rw [if_pos hb] at h
      cases hm : m2At (c :: t) with
      | some m' =>
        rw [hm] at h
        simp only [Option.some.injEq] at h
        exact ⟨c :: t, List.suffix_refl _, by rw [hm, h]⟩
      | none =>
        rw [hm] at h
        obtain ⟨l', hs, hm'⟩ := ih h
        exact ⟨l', hs.trans (List.suffix_cons c t), hm'⟩
    · rw [if_neg hb] at h
      obtain ⟨l', hs, hm'⟩ := ih h
      exact ⟨l', hs.trans (List.suffix_cons c t), hm'⟩

theorem findM2_self {m : JStr} (hne : m ≠ []) (h : m2At m = some m) :
    findM2 none m = some m := by
  cases m with
  | nil => exact absurd rfl hne
  | cons c t =>
    simp only [findM2, boundaryOk, if_true]
    rw [h]

theorem m2At_no_slash {l m : JStr} (h : m2At l = some m) : '/' ∉ m := by
  obtain ⟨d1, s1, a, s2, y, rest, -, hm, hd1, -, hs1, -, ha, -, hs2, -, hy, -⟩ := m2At_inv h
  rw [hm]
  intro hmem
  simp only [List.mem_append] at hmem
  rcases hmem with h | h | h | h | h
  · exact absurd (hd1 _ h) (by simp [slash_not_digit])
  · exact absurd (hs1 _ h) (by simp [slash_not_ws])
  · exact absurd (ha _ h) (by simp [slash_not_alpha])
  · exact absurd (hs2 _ h) (by simp [slash_not_ws])
  · exact absurd (hy _ h) (by simp [slash_not_digit])

theorem getLast?_cons_of_ne_nil {α} {a : α} {l : List α} (h : l ≠ []) :
    (a :: l).getLast? = l.getLast? := by
  rw [← List.singleton_append, List.getLast?_append_of_ne_nil _ h]

theorem trim_m1 {l m : JStr} (h : m1At l = some m) : trimWS m = m ∧ m ≠ [] := by
  obtain ⟨d1, d2, y, rest, -, hm, hd1, h1, -, -, hy, hy4, -⟩ := m1At_inv h
  have hd1ne : d1 ≠ [] := by
    intro hh
    rw [hh] at h1
    exact h1 (Or.inl rfl)
  have hyne : y ≠ [] := by
    intro hh
    rw [hh] at hy4
    cases hy4
  constructor
  · apply trim_eq_self
    · intro c hc
      rw [hm, head?_append_left _ hd1ne] at hc
      exact digit_not_ws (hd1 c (mem_of_head? hc))
    · intro c hc
      rw [hm, List.getLast?_append_of_ne_nil d1 (by simp)] at hc
      rw [getLast?_cons_of_ne_nil (by simp)] at hc
      rw [List.getLast?_append_of_ne_nil d2 (by simp)] at hc
      rw [getLast?_cons_of_ne_nil hyne] at hc
      exact digit_not_ws (hy c (List.mem_of_mem_getLast? hc))
  · rw [hm]
    simp

theorem trim_m2 {l m : JStr} (h : m2At l = some m) : trimWS m = m ∧ m ≠ [] := by
  obtain ⟨d1, s1, a, s2, y, rest, -, hm, hd1, h1, -, -, -, -, -, -, hy, hy4, -⟩ := m2At_inv h
  have hd1ne : d1 ≠ [] := by
    intro hh
    rw [hh] at h1
    exact h1 (Or.inl rfl)
  have hyne : y ≠ [] := by
    intro hh
    rw [hh] at hy4
    cases hy4
  constructor
  · apply trim_eq_self
    · intro c hc
      rw [hm, head?_append_left _ hd1ne] at hc
      exact digit_not_ws (hd1 c (mem_of_head? hc))
    · intro c hc
      rw [hm, List.getLast?_append_of_ne_nil d1 (by simp [hyne])] at hc
      rw [List.getLast?_append_of_ne_nil s1 (by simp [hyne])] at hc
      rw [List.getLast?_append_of_ne_nil a (by simp [hyne])] at hc
      rw [List.getLast?_append_of_ne_nil s2 hyne] at hc
      exact digit_not_ws (hy c (List.mem_of_mem_getLast? hc))
  · rw [hm]
    simp [hyne]

theorem date_filter_idem (raw : JStr) :
    applyFilterSettings (applyFilterSettings raw .date) .date
      = applyFilterSettings raw .date := by
  show dateMatch (trimWS (dateMatch (trimWS raw))) = dateMatch (trimWS raw)
  cases hf1 : findM1 none (trimWS raw) with
  | some m =>
    have hdm : dateMatch (trimWS raw) = m := by simp [dateMatch, hf1]
    rw [hdm]
    obtain ⟨l', -, hm1⟩ := findM1_suffix hf1
    obtain ⟨d1, d2, y, rest, -, hm, hd1, h1, hd2, h3, hy, hy4, -⟩ := m1At_inv hm1
    have htm := trim_m1 hm1
    rw [htm.1]
    have hself : m1At m = some m := by
      rw [hm]
      exact m1At_self hd1 h1 hd2 h3 hy hy4
    simp [dateMatch, findM1_self htm.2 hself]
  | none =>
    cases hf2 : findM2 none (trimWS raw) with
    | some m =>
      have hdm : dateMatch (trimWS raw) = m := by simp [dateMatch, hf1, hf2]
      rw [hdm]
      obtain ⟨l', -, hm2⟩ := findM2_suffix hf2
      obtain ⟨d1, s1, a, s2, y, rest, -, hm, hd1, h1, hs1, h2, ha, h3, hs2, h4, hy, hy4, -⟩ :=
        m2At_inv hm2
      have htm := trim_m2 hm2
      rw [htm.1]
      have hns : findM1 none m = none := findM1_eq_none (m2At_no_slash hm2) none
      have hself : m2At m = some m := by
        rw [hm]
        exact m2At_self hd1 h1 hs1 h2 ha h3 hs2 h4 hy hy4
      simp [dateMatch, hns, findM2_self htm.2 hself]
    | none =>
      have hdm : dateMatch (trimWS raw) = trimWS raw := by simp [dateMatch, hf1, hf2]
      rw [hdm, trim_idem]
      exact hdm

/-- C1 (amended).  Idempotence of the normalizing filters of the settings
filter engine holds for `digits_only`, `date` and `strip_parentheses` (for
every raw string), and the specification's positive example holds:
`apply("Amount: $1,234.50 due", amount) = "1234.50"`.  The `amount` filter
itself is not idempotent (see the counterexample). -/
theorem filter_idempotence_amended (raw : JStr) :
    applyFilterSettings (applyFilterSettings raw .digits_only) .digits_only
        = applyFilterSettings raw .digits_only
      ∧ applyFilterSettings (applyFilterSettings raw .date) .date
        = applyFilterSettings raw .date
      ∧ applyFilterSettings (applyFilterSettings raw .strip_parentheses) .strip_parentheses
        = applyFilterSettings raw .strip_parentheses
      ∧ applyFilterSettings ("Amount: $1,234.50 due".toList) .amount = "1234.50".toList :=
  ⟨digits_only_settings_idem raw, date_filter_idem raw, strip_parentheses_idem raw, by decide⟩

/-- Counterexample to C1 as stated: re-applying the `amount` filter to its own
output `"1234.50"` yields `"123.00"` (the regex alternation grabs the first
1–3 digits), so `apply ∘ apply ≠ apply` for `amount` at the specification's
own example input. -/
theorem amount_not_idempotent_cex :
    applyFilterSettings
        (applyFilterSettings ("Amount: $1,234.50 due".toList) .amount) .amount
      ≠ applyFilterSettings ("Amount: $1,234.50 due".toList) .amount := by
  decide

theorem toNat_ofNat_valid {n : Nat} (h : n < 55296) : (Char.ofNat n).toNat = n := by
  have hv : n.isValidChar := Or.inl (by omega)
  rw [Char.ofNat, dif_pos hv]
  rfl

theorem wsB_jsLower (c : Char) : wsB (jsLower c) = wsB c := by
  unfold jsLower
  split_ifs with h
  · have hws : wsB c = false := by
      cases hcw : wsB c
      · rfl
      · exfalso
        simp only [wsB, Char.isWhitespace, Bool.or_eq_true, decide_eq_true_eq] at hcw
        rcases hcw with (((he | he) | he) | he) <;>
          (subst he; revert h; decide)
    have ht : (Char.ofNat (c.toNat + 32)).toNat = c.toNat + 32 := by
      apply toNat_ofNat_valid
      omega
    have hof : wsB (Char.ofNat (c.toNat + 32)) = false := by
      simp only [wsB, Char.isWhitespace, Bool.or_eq_false_iff, decide_eq_false_iff_not]
      refine ⟨⟨⟨?_, ?_⟩, ?_⟩, ?_⟩ <;> intro he <;>
        (first
          | (have h2 := congrArg Char.toNat he
             rw [ht, show (' ' : Char).toNat = 32 from rfl] at h2
             omega)
          | (have h2 := congrArg Char.toNat he
             rw [ht, show ('\t' : Char).toNat = 9 from rfl] at h2
             omega)
          | (have h2 := congrArg Char.toNat he
             rw [ht, show ('\r' : Char).toNat = 13 from rfl] at h2
             omega)
          | (have h2 := congrArg Char.toNat he
             rw [ht, show ('\n' : Char).toNat = 10 from rfl] at h2
             omega))
    rw [hws, hof]
  · rfl

theorem indexOf?_spec {hay pat : JStr} {i : Nat} (h : indexOf? hay pat = some i) :
    pat <+: hay.drop i ∧ i ≤ hay.length := by
  induction hay generalizing i with
  | nil =>
    unfold indexOf? at h
    split_ifs at h with hp
    subst hp
    cases h
    exact ⟨List.prefix_refl _, Nat.le_refl _⟩
  | cons c t ih =>
    unfold indexOf? at h
    split_ifs at h with hp
    · cases h
      exact ⟨List.isPrefixOf_iff_prefix.mp hp, Nat.zero_le _⟩
    · obtain ⟨j, hj, hij⟩ := Option.map_eq_some'.mp h
      obtain ⟨hpre, hle⟩ := ih hj
      subst hij
      exact ⟨hpre, by simpa using Nat.succ_le_succ hle⟩

theorem trim_length_le (l : JStr) : (trimWS l).length ≤ l.length := by
  have h1 : (trimWS l).length ≤ (ltrimWS l).length := by
    unfold trimWS rtrimWS
    rw [List.length_reverse]
    have h := dropWhile_length_le wsB (ltrimWS l).reverse
    rw [List.length_reverse] at h
    exact h
  exact le_trans h1 (dropWhile_length_le wsB l)

theorem getLast?_suffix {s l : List Char} (hs : s <:+ l) (hne : s ≠ []) :
    s.getLast? = l.getLast? := by
  obtain ⟨w, hw⟩ := hs
  rw [← hw, List.getLast?_append_of_ne_nil w hne]

theorem head?_take {l : JStr} {n : Nat} (hn : n ≠ 0) : (l.take n).head? = l.head? := by
  cases l with
  | nil => simp
  | cons c t =>
    cases n with
    | zero => exact absurd rfl hn
    | succ m => rfl

theorem rtrim_eq_nil_iff {l : JStr} : rtrimWS l = [] ↔ ∀ c ∈ l, wsB c = true := by
  unfold rtrimWS
  rw [List.reverse_eq_nil_iff, List.dropWhile_eq_nil_iff]
  constructor
  · intro h c hc
    exact h c (List.mem_reverse.mpr hc)
  · intro h c hc
    exact h c (List.mem_reverse.mp hc)

theorem ltrim_eq_nil_iff {l : JStr} : ltrimWS l = [] ↔ ∀ c ∈ l, wsB c = true := by
  unfold ltrimWS
  rw [List.dropWhile_eq_nil_iff]

theorem collapseAux_getLast {l : JStr} {c : Char} (hl : l.getLast? = some c)
    (hc : wsB c = false) : ∀ b, (collapseAux b l).getLast? = some c := by
  induction l with
  | nil => cases hl
  | cons a t ih =>
    intro b
    cases t with
    | nil =>
      simp only [List.getLast?_singleton, Option.some.injEq] at hl
      subst hl
      simp [collapseAux, hc]
    | cons x t' =>
      rw [getLast?_cons_of_ne_nil (by simp)] at hl
      have ihx := ih hl
      have hne : ∀ b', collapseAux b' (x :: t') ≠ [] := by
        intro b' hnil
        have hx := ihx b'
        rw [hnil] at hx
        cases hx
      unfold collapseAux
      by_cases ha : wsB a = true
      · rw [if_pos ha]
        by_cases hb : b
        · rw [if_pos hb]
          exact ihx true
        · rw [if_neg hb]
          rw [getLast?_cons_of_ne_nil (hne true)]
          exact ihx true
      · rw [if_neg ha]
        rw [getLast?_cons_of_ne_nil (hne false)]
        exact ihx false

theorem normJS_head {l : JStr} {c : Char} {t : JStr} (h : normJS l = c :: t) :
    wsB c = false := by
  unfold normJS collapseWS at h
  cases ht : trimWS l with
  | nil => rw [ht] at h; cases h
  | cons a t' =>
    rw [ht] at h
    have ha : wsB a = false := trim_head_false ht
    rw [collapseAux, if_neg (by simp [ha])] at h
    cases h
    exact ha

theorem normJS_getLast {l : JStr} {c : Char} (h : (normJS l).getLast? = some c) :
    wsB c = false := by
  unfold normJS collapseWS at h
  cases ht : (trimWS l).getLast? with
  | none =>
    rw [List.getLast?_eq_none_iff.mp ht] at h
    simp [collapseAux] at h
  | some z =>
    have hz : wsB z = false := trim_getLast_false ht
    have := collapseAux_getLast ht hz false
    rw [this] at h
    cases h
    exact hz

theorem rtrim_append_ws {x w : JStr} (hw : ∀ c ∈ w, wsB c = true) :
    rtrimWS (x ++ w) = rtrimWS x := by
  unfold rtrimWS
  rw [List.reverse_append, List.dropWhile_append_of_pos]
  intro a ha
  exact hw a (List.mem_reverse.mp ha)

theorem getLast?_map {α β} (f : α → β) (l : List α) :
    (l.map f).getLast? = l.getLast?.map f := by
  rw [← List.head?_reverse, ← List.map_reverse, List.head?_map, List.head?_reverse]

theorem getLast?_of_ne_nil {α} {l : List α} (h : l ≠ []) : ∃ c, l.getLast? = some c := by
  cases hl : l.getLast? with
  | none => exact absurd (List.getLast?_eq_none_iff.mp hl) h
  | some c => exact ⟨c, rfl⟩

theorem trim_of_getLast {x : JStr} {c : Char} (h : x.getLast? = some c)
    (hc : wsB c = false) :
    trimWS x ≠ [] ∧ (trimWS x).getLast? = some c := by
  have hlne : ltrimWS x ≠ [] := by
    intro hh
    have hall := ltrim_eq_nil_iff.mp hh
    have hcm : c ∈ x := List.mem_of_mem_getLast? h
    rw [hall c hcm] at hc
    cases hc
  have hlast : (ltrimWS x).getLast? = some c := by
    rw [ltrim_getLast?_eq hlne]
    exact h
  have hr : rtrimWS (ltrimWS x) = ltrimWS x := by
    apply rtrim_eq_self
    intro z hz
    rw [hlast] at hz
    cases hz
    exact hc
  constructor
  · show rtrimWS (ltrimWS x) ≠ []
    rw [hr]
    exact hlne
  · show (rtrimWS (ltrimWS x)).getLast? = some c
    rw [hr]
    exact hlast

theorem trim_of_head {x : JStr} {c : Char} (h : x.head? = some c)
    (hc : wsB c = false) : trimWS x ≠ [] := by
  have hl : ltrimWS x = x := by
    apply ltrim_eq_self
    intro z hz
    rw [h] at hz
    cases hz
    exact hc
  show rtrimWS (ltrimWS x) ≠ []
  rw [hl]
  intro hh
  have hall := rtrim_eq_nil_iff.mp hh
  rw [hall c (mem_of_head? h)] at hc
  cases hc

theorem dtfLeftToken_spec {v : JStr} {idx : Nat} (hL : dtfLeftContext v idx ≠ []) :
    dtfLeftToken v idx ≠ [] ∧
      (dtfLeftToken v idx).length ≤ (dtfLeftContext v idx).length := by
  obtain ⟨cl, hcl⟩ := getLast?_of_ne_nil hL
  have hclw : wsB cl = false := trim_getLast_false (l := v.take idx) hcl
  have hsuf : sliceLast 20 (dtfLeftContext v idx) <:+ dtfLeftContext v idx := by
    unfold sliceLast
    exact List.drop_suffix _ _
  have hsne : sliceLast 20 (dtfLeftContext v idx) ≠ [] := by
    unfold sliceLast
    intro hh
    have h1 := List.drop_eq_nil_iff.mp hh
    have h2 : 0 < (dtfLeftContext v idx).length := List.length_pos.mpr hL
    omega
  have hlast2 : (sliceLast 20 (dtfLeftContext v idx)).getLast? = some cl := by
    rw [getLast?_suffix hsuf hsne]
    exact hcl
  have hmain := trim_of_getLast hlast2 hclw
  refine ⟨hmain.1,
    le_trans (trim_length_le (sliceLast 20 (dtfLeftContext v idx))) ?_⟩
  unfold sliceLast
  rw [List.length_drop]
  omega

theorem dtfRightToken_ne {v sel : JStr} {idx : Nat}
    (hR : dtfRightContext v sel idx ≠ []) : dtfRightToken v sel idx ≠ [] := by
  obtain ⟨cr, rc', hrc⟩ := List.exists_cons_of_ne_nil hR
  have hcrw : wsB cr = false := trim_head_false (l := v.drop (idx + sel.length)) hrc
  apply trim_of_head (x := (dtfRightContext v sel idx).take 20) (c := cr)
  · rw [head?_take (by omega)]
    rw [hrc]
    rfl
  · exact hcrw

theorem roundTrip_core (eng : RegexEngine) (v sel : JStr) (idx : Nat)
    (hvh : ∀ c, v.head? = some c → wsB c = false)
    (hsh : ∀ c, sel.head? = some c → wsB c = false)
    (hsl : ∀ c, sel.getLast? = some c → wsB c = false)
    (hselne : sel ≠ [])
    (htrimv : trimWS v = v)
    (hidx : indexOf? (lowerStr v) (lowerStr sel) = some idx)
    (hL : dtfLeftContext v idx ≠ [])
    (hR : dtfRightContext v sel idx ≠ [])
    (hA : indexOf? v (dtfLeftToken v idx)
        = some ((dtfLeftContext v idx).length - (dtfLeftToken v idx).length))
    (hB : indexOfFrom v (dtfRightToken v sel idx) (dtfLeftContext v idx).length
        = some (idx + sel.length
            + ((v.drop (idx + sel.length)).takeWhile wsB).length)) :
    applyFilter eng v
        (.between_tokens (dtfLeftToken v idx) (dtfRightToken v sel idx))
      = (v.drop idx).take sel.length := by
  obtain ⟨hpre, hidxle0⟩ := indexOf?_spec hidx
  have hidxle : idx ≤ v.length := by
    simp only [lowerStr, List.length_map] at hidxle0
    exact hidxle0
  have hlensel : idx + sel.length ≤ v.length := by
    have h1 := hpre.length_le
    simp only [lowerStr, List.length_map, List.length_drop] at h1
    omega
  have htknil : v.take idx ≠ [] := by
    intro hh
    apply hL
    show trimWS (v.take idx) = []
    rw [hh]
    rfl
  have hidx0 : idx ≠ 0 := by
    intro hh
    apply htknil
    rw [hh, List.take_zero]
  have hheadtake : (v.take idx).head? = v.head? := head?_take hidx0
  have hltr : ltrimWS (v.take idx) = v.take idx := by
    apply ltrim_eq_self
    intro c hc
    rw [hheadtake] at hc
    exact hvh c hc
  have hlceq : dtfLeftContext v idx = rtrimWS (v.take idx) := by
    show trimWS (v.take idx) = rtrimWS (v.take idx)
    unfold trimWS
    rw [hltr]
  obtain ⟨w1, hw1, hw1ws⟩ := rtrim_decomp (v.take idx)
  have hdecompL : v.take idx = dtfLeftContext v idx ++ w1 := by
    rw [hlceq]
    exact hw1
  have hlcw1 : (dtfLeftContext v idx).length + w1.length = idx := by
    have hlen := congrArg List.length hdecompL
    rw [List.length_take, List.length_append, Nat.min_eq_left hidxle] at hlen
    omega
  have hLspec := dtfLeftToken_spec hL
  have hLne : dtfLeftToken v idx ≠ [] := hLspec.1
  have hLle : (dtfLeftToken v idx).length ≤ (dtfLeftContext v idx).length :=
    hLspec.2
  have hRne : dtfRightToken v sel idx ≠ [] := dtfRightToken_ne hR
  set w2 := (v.drop (idx + sel.length)).takeWhile wsB with hw2
  have hw2ws : ∀ c ∈ w2, wsB c = true := by
    intro c hc
    rw [hw2] at hc
    exact List.mem_takeWhile_imp hc
  set rc0 := (v.drop (idx + sel.length)).dropWhile wsB with hrc0
  have hsplit2 : v.drop (idx + sel.length) = w2 ++ rc0 :=
    (List.takeWhile_append_dropWhile wsB (v.drop (idx + sel.length))).symm
  set occ := (v.drop idx).take sel.length with hocc
  have hocclen : occ.length = sel.length := by
    rw [hocc, List.length_take, List.length_drop]
    omega
  have hdrop_idx : v.drop idx = occ ++ (w2 ++ rc0) := by
    rw [hocc]
    conv_lhs => rw [← List.take_append_drop sel.length (v.drop idx)]
    rw [List.drop_drop]
    rw [hsplit2]
  have hv_decomp : v = dtfLeftContext v idx ++ (w1 ++ (occ ++ (w2 ++ rc0))) := by
    conv_lhs => rw [← List.take_append_drop idx v]
    rw [hdecompL, hdrop_idx, List.append_assoc]
  have hloweq : lowerStr occ = lowerStr sel := by
    have h1 : lowerStr sel = ((lowerStr v).drop idx).take (lowerStr sel).length :=
      List.prefix_iff_eq_take.mp hpre
    have h3 : (lowerStr sel).length = sel.length := by
      simp [lowerStr]
    rw [h3] at h1
    rw [hocc]
    show ((v.drop idx).take sel.length).map jsLower = lowerStr sel
    rw [List.map_take, List.map_drop]
    exact h1.symm
  have hoccne : occ ≠ [] := by
    intro hh
    apply hselne
    have h0 : occ.length = 0 := by rw [hh]; rfl
    rw [hocclen] at h0
    exact List.length_eq_zero.mp h0
  have hocch : ∀ c, occ.head? = some c → wsB c = false := by
    intro c hc
    obtain ⟨s0, st, hsel0⟩ := List.exists_cons_of_ne_nil hselne
    have hs0 : wsB s0 = false := hsh s0 (by rw [hsel0]; rfl)
    have h1 : (lowerStr occ).head? = (lowerStr sel).head? := by rw [hloweq]
    simp only [lowerStr, List.head?_map] at h1
    rw [hc, hsel0] at h1
    simp only [List.head?_cons, Option.map_some', Option.some.injEq] at h1
    have hwc := congrArg wsB h1
    rw [wsB_jsLower, wsB_jsLower] at hwc
    rw [hwc]
    exact hs0
  have hoccl : ∀ c, occ.getLast? = some c → wsB c = false := by
    intro c hc
    obtain ⟨z, hz⟩ := getLast?_of_ne_nil hselne
    have hzw : wsB z = false := hsl z hz
    have h1 : (lowerStr occ).getLast? = (lowerStr sel).getLast? := by rw [hloweq]
    simp only [lowerStr] at h1
    rw [getLast?_map, getLast?_map, hc, hz] at h1
    simp only [Option.map_some', Option.some.injEq] at h1
    have hwc := congrArg wsB h1
    rw [wsB_jsLower, wsB_jsLower] at hwc
    rw [hwc]
    exact hzw
  have harith : idx + sel.length + w2.length - (dtfLeftContext v idx).length
      = w1.length + (occ.length + w2.length) := by
    rw [hocclen]
    omega
  have hslice : sliceFT v (dtfLeftContext v idx).length
      (idx + sel.length + w2.length) = w1 ++ (occ ++ w2) := by
    have hdl : v.drop (dtfLeftContext v idx).length
        = w1 ++ (occ ++ (w2 ++ rc0)) := by
      have h4 := congrArg
        (fun l => List.drop (dtfLeftContext v idx).length l) hv_decomp
      simp only [] at h4
      rw [List.drop_left] at h4
      exact h4
    unfold sliceFT
    rw [harith, hdl]
    rw [List.take_append]
    congr 1
    rw [List.take_append]
    congr 1
    exact List.take_left w2 rc0
  have htrimslice : trimWS (w1 ++ (occ ++ w2)) = occ := by
    show rtrimWS (ltrimWS (w1 ++ (occ ++ w2))) = occ
    have hl1 : ltrimWS (w1 ++ (occ ++ w2)) = occ ++ w2 := by
      show (w1 ++ (occ ++ w2)).dropWhile wsB = occ ++ w2
      rw [List.dropWhile_append_of_pos]
      · obtain ⟨o0, ot, hocc0⟩ := List.exists_cons_of_ne_nil hoccne
        have ho0 : wsB o0 = false := hocch o0 (by rw [hocc0]; rfl)
        rw [hocc0, List.cons_append, List.dropWhile_cons_of_neg (by simp [ho0])]
      · exact hw1ws
    rw [hl1, rtrim_append_ws hw2ws]
    exact rtrim_eq_self hoccl
  have hor : ¬(dtfLeftToken v idx = [] ∨ dtfRightToken v sel idx = []) :=
    not_or.mpr ⟨hLne, hRne⟩
  have hB2 : indexOfFrom v (dtfRightToken v sel idx)
      ((dtfLeftContext v idx).length - (dtfLeftToken v idx).length
        + (dtfLeftToken v idx).length)
      = some (idx + sel.length + w2.length) := by
    rw [Nat.sub_add_cancel hLle]
    exact hB
  have hstep : applyFilter eng v
      (.between_tokens (dtfLeftToken v idx) (dtfRightToken v sel idx))
      = trimWS (sliceFT v
          ((dtfLeftContext v idx).length - (dtfLeftToken v idx).length
            + (dtfLeftToken v idx).length)
          (idx + sel.length + w2.length)) := by
    simp only [applyFilter, htrimv, hA, hB2]
    rw [if_neg hor]
  rw [hstep, Nat.sub_add_cancel hLle, hslice, htrimslice]

/-- C10 (amended).  Round-trip of highlight-derived filters: whenever the
whitespace-normalized selection occurs case-insensitively at index `idx` in
the whitespace-normalized sample with non-empty trimmed context on both
sides, `deriveTokenFilter` returns a `between_tokens` spec whose tokens are
the trimmed trailing/leading twenty characters of the left/right context;
and — provided additionally that the left token's FIRST occurrence in the
normalized sample is the one ending where the left context ends, and the
right token's first occurrence at or after that point is the one opening
the right context — applying that spec with `applyFilter` to the normalized
sample returns exactly the highlighted substring.  Without the two
first-occurrence side conditions the round-trip can fail (see the
counterexample). -/
theorem derive_token_filter_round_trip (eng : RegexEngine) (raw selection : JStr)
    (idx : Nat)
    (hsel : normJS selection ≠ [])
    (hidx : indexOf? (lowerStr (normJS raw)) (lowerStr (normJS selection))
        = some idx)
    (hL : dtfLeftContext (normJS raw) idx ≠ [])
    (hR : dtfRightContext (normJS raw) (normJS selection) idx ≠ [])
    (hA : indexOf? (normJS raw) (dtfLeftToken (normJS raw) idx)
        = some ((dtfLeftContext (normJS raw) idx).length
            - (dtfLeftToken (normJS raw) idx).length))
    (hB : indexOfFrom (normJS raw)
          (dtfRightToken (normJS raw) (normJS selection) idx)
          (dtfLeftContext (normJS raw) idx).length
        = some (idx + (normJS selection).length
            + (((normJS raw).drop (idx + (normJS selection).length)).takeWhile
                wsB).length)) :
    deriveTokenFilter raw selection
        = some (.between_tokens (dtfLeftToken (normJS raw) idx)
            (dtfRightToken (normJS raw) (normJS selection) idx))
      ∧ applyFilter eng (normJS raw)
          (.between_tokens (dtfLeftToken (normJS raw) idx)
            (dtfRightToken (normJS raw) (normJS selection) idx))
        = ((normJS raw).drop idx).take (normJS selection).length := by
  have hvh : ∀ c, (normJS raw).head? = some c → wsB c = false := by
    intro c hc
    cases hvv : normJS raw with
    | nil => rw [hvv] at hc; cases hc
    | cons a t =>
      rw [hvv] at hc
      simp only [List.head?_cons, Option.some.injEq] at hc
      subst hc
      exact normJS_head hvv
  have hvl : ∀ c, (normJS raw).getLast? = some c → wsB c = false := by
    intro c hc
    exact normJS_getLast hc
  have hsh : ∀ c, (normJS selection).head? = some c → wsB c = false := by
    intro c hc
    cases hvv : normJS selection with
    | nil => rw [hvv] at hc; cases hc
    | cons a t =>
      rw [hvv] at hc
      simp only [List.head?_cons, Option.some.injEq] at hc
      subst hc
      exact normJS_head hvv
  have hsl : ∀ c, (normJS selection).getLast? = some c → wsB c = false := by
    intro c hc
    exact normJS_getLast hc
  have htrimv : trimWS (normJS raw) = normJS raw := trim_eq_self hvh hvl
  have hvne : normJS raw ≠ [] := by
    intro hh
    apply hL
    show trimWS ((normJS raw).take idx) = []
    rw [hh, List.take_nil]
    rfl
  have hLne : dtfLeftToken (normJS raw) idx ≠ [] := (dtfLeftToken_spec hL).1
  have hRne : dtfRightToken (normJS raw) (normJS selection) idx ≠ [] :=
    dtfRightToken_ne hR
  refine ⟨?_, roundTrip_core eng (normJS raw) (normJS selection) idx hvh hsh hsl
    hsel htrimv hidx hL hR hA hB⟩
  simp only [deriveTokenFilter, hidx]
  rw [if_neg (not_or.mpr ⟨hvne, hsel⟩)]
  rw [if_pos ⟨hLne, hRne⟩]

/-- Witness for C10 (amended): for the sample `"Total: 99.00 GBP"` with the
selection `"99.00"`, the derived spec is `between_tokens "Total:" "GBP"` and
applying it recovers exactly `"99.00"`. -/
theorem derive_token_filter_round_trip_witness :
    deriveTokenFilter ("Total: 99.00 GBP".toList) ("99.00".toList)
        = some (.between_tokens
            (dtfLeftToken (normJS ("Total: 99.00 GBP".toList)) 7)
            (dtfRightToken (normJS ("Total: 99.00 GBP".toList))
              (normJS ("99.00".toList)) 7))
      ∧ applyFilter engINV (normJS ("Total: 99.00 GBP".toList))
          (.between_tokens
            (dtfLeftToken (normJS ("Total: 99.00 GBP".toList)) 7)
            (dtfRightToken (normJS ("Total: 99.00 GBP".toList))
              (normJS ("99.00".toList)) 7))
        = ((normJS ("Total: 99.00 GBP".toList)).drop 7).take
            (normJS ("99.00".toList)).length :=
  derive_token_filter_round_trip engINV ("Total: 99.00 GBP".toList)
    ("99.00".toList) 7 (by decide) (by decide) (by decide) (by decide)
    (by decide) (by decide)

/-- Counterexample to C10 as stated: for the sample `"a XRX R"` and the
selection `"XRX"`, `deriveTokenFilter` yields `between_tokens "a" "R"`, but
applying that spec returns `"X"` — the text between the FIRST occurrence of
`"a"` and the FIRST subsequent occurrence of `"R"` (which is the `R` inside
the selection itself) — and not the highlighted substring `"XRX"`. -/
theorem derive_token_filter_cex :
    deriveTokenFilter ("a XRX R".toList) ("XRX".toList)
        = some (.between_tokens ("a".toList) ("R".toList))
      ∧ applyFilter engINV (normJS ("a XRX R".toList))
          (.between_tokens ("a".toList) ("R".toList))
        ≠ ((normJS ("a XRX R".toList)).drop 2).take ("XRX".toList).length := by
  decide
